import Mathlib

/-!
# Verification of the WorkflowSchedule repository

Shallow embedding of the C++ sources `src/workflow/graph.h` and
`src/workflow/schedule.h` (the variant used by `main.cpp`, i.e. the one whose
`schedule()` returns a `ScheduledJob` vector).

Modelling conventions:
* `Job*` pointers become natural-number handles: handle `i` denotes the job
  stored at index `i` of the graph's job list (the `jobs` arena).
* C++ `int` times become unbounded `Int` (the program performs no intentional
  wraparound arithmetic).
* `std::unordered_map<Job*, int>` run state accessed through `operator[]`
  (which default-constructs `0` for absent keys) becomes a total function
  `Nat → Int` (resp. `Nat → Nat`) that is `0` off its written domain.
* The `while (!pq.empty())` loop of `topologicalSort` runs with fuel
  `jobs.length`: every job is pushed into the priority queue at most once
  (its tracked indegree reaches zero at most once), so `jobs.length`
  iterations always suffice and the fuel variant agrees with the source loop.
* The recursive memoized `getJobCriticalWeight` is embedded with explicit
  recursion depth (fuel); on an acyclic graph the value stabilizes once the
  fuel reaches `jobs.length`, which is exactly the termination argument of
  the memoized C++ recursion.
-/

/-- `struct Job` of `graph.h`: a name and an execution time. -/
structure Job where
  name : String
  executionTime : Int
deriving DecidableEq, Repr

/-- `struct Communication` of `graph.h`: a directed edge between two job
handles carrying a communication time. -/
structure Communication where
  fromJob : Nat
  toJob : Nat
  commTime : Int
deriving DecidableEq, Repr

/-- `class WorkflowGraph`: the arena of jobs (handle = index) together with
the flat list of all communications (each `communications[j]` bucket of the
C++ map, concatenated; the per-job buckets are recovered by filtering). -/
structure WorkflowGraph where
  jobs : List Job
  comms : List Communication
deriving DecidableEq, Repr

/-- Every communication references existing job handles (the ingestion
contract of the spec, satisfied by any graph built from `addJob` /
`addCommunication` calls on previously added names). -/
def WFGraph (g : WorkflowGraph) : Prop :=
  ∀ c ∈ g.comms, c.fromJob < g.jobs.length ∧ c.toJob < g.jobs.length

/-- Non-negative durations: the data-model contract for execution and
communication times. -/
def NonnegTimes (g : WorkflowGraph) : Prop :=
  (∀ jb ∈ g.jobs, 0 ≤ jb.executionTime) ∧ (∀ c ∈ g.comms, 0 ≤ c.commTime)

/-- Acyclicity, expressed by a topological numbering: some rank function
strictly increases along every edge and stays below the job count on edge
targets. Such a numbering exists exactly when the edge set has no cycle. -/
def Acyclic (g : WorkflowGraph) : Prop :=
  ∃ rank : Nat → Nat,
    ∀ c ∈ g.comms, rank c.fromJob < rank c.toJob ∧ rank c.toJob < g.jobs.length

/-- Execution time of the job behind a handle (`job->executionTime`). -/
def execTime (g : WorkflowGraph) (v : Nat) : Int :=
  match g.jobs.get? v with
  | some jb => jb.executionTime
  | none => 0

/-- `WorkflowGraph::getOutCommunications`: the bucket `communications[job]`. -/
def outComms (g : WorkflowGraph) (u : Nat) : List Communication :=
  g.comms.filter (fun c => c.fromJob == u)

/-- `WorkflowGraph::getInCommunications`: all communications whose target is
the given job. -/
def inComms (g : WorkflowGraph) (v : Nat) : List Communication :=
  g.comms.filter (fun c => c.toJob == v)

/-- `WorkflowGraph::getSuccessors`: targets of the outgoing communications. -/
def successors (g : WorkflowGraph) (u : Nat) : List Nat :=
  (outComms g u).map (fun c => c.toJob)

/-- `JobCriticalityCompare::getJobCriticalWeight`, with explicit recursion
depth. The body mirrors the C++: running maximum (starting from `0`) of
`comm->commTime + getJobCriticalWeight(comm->toJob)` over the outgoing
communications, plus the job's execution time. -/
def getJobCriticalWeight (g : WorkflowGraph) : Nat → Nat → Int
  | 0, _ => 0
  | fuel + 1, u =>
    ((outComms g u).foldl
      (fun acc c =>
        let w := c.commTime + getJobCriticalWeight g fuel c.toJob
        if acc < w then w else acc) 0) + execTime g u

/-- The critical weight actually used while ordering jobs: the stable value
reached by the memoized recursion (depth `jobs.length` always suffices on a
DAG, see `cw_fuel_stable`). -/
def criticalWeight (g : WorkflowGraph) (u : Nat) : Int :=
  getJobCriticalWeight g g.jobs.length u

/-- First element attaining the maximal priority, mirroring
`std::priority_queue::top()` of the max-heap built from
`JobCriticalityCompare` (ties are heap-order dependent in C++; the model
fixes the earliest listed maximum). -/
def bestOf (f : Nat → Int) : List Nat → Option Nat
  | [] => none
  | x :: xs => some (xs.foldl (fun b y => if f b < f y then y else b) x)

/-- `pq.top(); pq.pop()`: extract a maximal-priority element and the
remaining queue contents. -/
def popMax (f : Nat → Int) (l : List Nat) : Option (Nat × List Nat) :=
  match bestOf f l with
  | none => none
  | some b => some (b, l.erase b)

/-- The inner loop of `topologicalSort`: decrement `inDegrees[job]` for each
successor in bucket order and collect the jobs whose tracked indegree hits
exactly `0` (those are pushed into the priority queue). -/
def processSuccs : List Nat → (Nat → Int) → ((Nat → Int) × List Nat)
  | [], deg => (deg, [])
  | v :: vs, deg =>
    let d := deg v - 1
    let deg2 := fun w => if w = v then d else deg w
    let pr := processSuccs vs deg2
    (pr.1, if d = 0 then v :: pr.2 else pr.2)

/-- The `while (!pq.empty())` loop of `WorkflowSchedule::topologicalSort`,
with fuel (`jobs.length` iterations always suffice, each job being popped at
most once). -/
def kahnLoop (g : WorkflowGraph) (f : Nat → Int) :
    Nat → (Nat → Int) → List Nat → List Nat
  | 0, _, _ => []
  | fuel + 1, deg, pq =>
    match popMax f pq with
    | none => []
    | some (u, rest) =>
      let pr := processSuccs (successors g u) deg
      u :: kahnLoop g f fuel pr.1 (rest ++ pr.2)

/-- `WorkflowSchedule::topologicalSort`: Kahn's algorithm seeded with the
indegree-zero jobs, driven by the criticality priority queue. -/
def topologicalSort (g : WorkflowGraph) : List Nat :=
  kahnLoop g (criticalWeight g) g.jobs.length
    (fun v => ((inComms g v).length : Int))
    ((List.range g.jobs.length).filter (fun v => (inComms g v).length == 0))

/-- `struct ScheduledJob` of `schedule.h` (the job field holds the handle). -/
structure ScheduledJob where
  job : Nat
  machineId : Nat
  scheduleTime : Int
  startTime : Int
  finishTime : Int
deriving DecidableEq, Repr

/-- The per-run mutable state of `WorkflowSchedule::schedule`:
`machineFinishTime`, `jobFinishTime`, `job2machineMap` (the two maps with
`operator[]` default `0`) and the accumulated `scheduleOrder`. -/
structure SchedState where
  mft : List Int
  jft : Nat → Int
  j2m : Nat → Nat
  order : List ScheduledJob

/-- The earliest-start computation for one candidate machine: start from
`machineFinishTime[machine]`, then fold over the incoming communications,
skipping predecessors mapped to the same machine and otherwise taking the
max with `jobFinishTime[pred] + commTime`. -/
def earliestStart (g : WorkflowGraph) (st : SchedState) (j m : Nat) : Int :=
  (inComms g j).foldl
    (fun acc c =>
      if m = st.j2m c.fromJob then acc
      else max acc (st.jft c.fromJob + c.commTime))
    (st.mft.getD m 0)

/-- The candidate `ScheduledJob` built for one machine inside the
per-machine loop of `schedule()`. -/
def mkCandidate (g : WorkflowGraph) (st : SchedState) (j m : Nat) : ScheduledJob :=
  let est := earliestStart g st j m
  ⟨j, m, st.mft.getD m 0, est, est + execTime g j⟩

/-- `candidateSchedules`: one candidate per machine `0 ≤ m < K`. -/
def candidates (g : WorkflowGraph) (K : Nat) (st : SchedState) (j : Nat) :
    List ScheduledJob :=
  (List.range K).map (mkCandidate g st j)

/-- The best-schedule selection scan: start from `candidateSchedules.front()`
and replace on strictly smaller finish time, so the first minimal-finish
candidate (lowest machine index) wins. `none` models the undefined behaviour
of `front()` on an empty vector (possible only when `numMachines = 0`). -/
def pickBest : List ScheduledJob → Option ScheduledJob
  | [] => none
  | c :: cs =>
    some (cs.foldl (fun best sch => if best.finishTime > sch.finishTime then sch else best) c)

/-- One iteration of the placement loop: pick the best candidate, append it
to the schedule order and update the three run-state maps. -/
def scheduleStep (g : WorkflowGraph) (K : Nat) (st : SchedState) (j : Nat) :
    Option SchedState :=
  match pickBest (candidates g K st j) with
  | none => none
  | some best =>
    some
      { mft := st.mft.set best.machineId best.finishTime
        jft := fun v => if v = j then best.finishTime else st.jft v
        j2m := fun v => if v = j then best.machineId else st.j2m v
        order := st.order ++ [best] }

/-- The placement loop of `schedule()` over the topological order. -/
def scheduleLoop (g : WorkflowGraph) (K : Nat) :
    List Nat → SchedState → Option SchedState
  | [], st => some st
  | j :: rest, st =>
    match scheduleStep g K st j with
    | none => none
    | some st2 => scheduleLoop g K rest st2

/-- The final makespan scan: running maximum (from `0`) of the machine
finish times, mirroring `if (makespan < mTime) makespan = mTime`. -/
def makespanOf (l : List Int) : Int :=
  l.foldl (fun acc t => if acc < t then t else acc) 0

/-- Fresh run state: `machineFinishTime(numMachines, 0)` and empty maps. -/
def initState (K : Nat) : SchedState :=
  ⟨List.replicate K 0, fun _ => 0, fun _ => 0, []⟩

/-- `WorkflowSchedule::schedule()` for a (non-negative) machine count `K`:
topological order, greedy best-fit placement, makespan. `none` models the
undefined behaviour reached when `K = 0` and at least one job must be
placed (`candidateSchedules.front()` on an empty vector). -/
def schedule (g : WorkflowGraph) (K : Nat) : Option (Int × List ScheduledJob) :=
  match scheduleLoop g K (topologicalSort g) (initState K) with
  | none => none
  | some st => some (makespanOf st.mft, st.order)

/-- The `WorkflowSchedule` object: the constructor merely stores the graph
and the raw machine count, performing no validation whatsoever. -/
structure WorkflowSchedule where
  graph : WorkflowGraph
  numMachines : Int
deriving Repr

/-- `WorkflowSchedule::WorkflowSchedule(_graph, _numMachines)`: total, never
rejects any machine count. -/
def mkWorkflowSchedule (g : WorkflowGraph) (k : Int) : WorkflowSchedule :=
  ⟨g, k⟩

/-- Running `schedule()` on a constructed object. A negative machine count
makes `std::vector<int> machineFinishTime(numMachines, 0)` request an
astronomically large size (failure), modelled as `none`; otherwise the count
is used as is. -/
def runSchedule (ws : WorkflowSchedule) : Option (Int × List ScheduledJob) :=
  if ws.numMachines < 0 then none
  else schedule ws.graph ws.numMachines.toNat

/-!
## Graph construction (`WorkflowGraph` mutation API)

`jobs` is `std::unordered_map<std::string, Job*>`; `operator[]` on a missing
key default-constructs a **null** pointer entry. The map is modelled as an
association list `String × Option Nat` where `none` is a null `Job*` and
`some i` is the handle of the job allocated at index `i` of the arena.
-/

/-- Builder-level state of a `WorkflowGraph` under construction. -/
structure BuilderState where
  jobMap : List (String × Option Nat)
  arena : List Job
  edges : List (Option Nat × Option Nat × Int)
deriving DecidableEq, Repr

/-- Plain lookup in the name map. -/
def mapFind (m : List (String × Option Nat)) (k : String) : Option (Option Nat) :=
  match m with
  | [] => none
  | (k2, v) :: rest => if k2 = k then some v else mapFind rest k

/-- `jobs[name] = v`: overwrite the entry if present, else append it. -/
def mapSet (m : List (String × Option Nat)) (k : String) (v : Option Nat) :
    List (String × Option Nat) :=
  match m with
  | [] => [(k, v)]
  | (k2, v2) :: rest =>
    if k2 = k then (k2, v) :: rest else (k2, v2) :: mapSet rest k v

/-- `jobs[name]` read through `operator[]`: a missing key silently inserts a
null (`none`) entry and yields it. -/
def mapIndex (m : List (String × Option Nat)) (k : String) :
    Option Nat × List (String × Option Nat) :=
  match mapFind m k with
  | some v => (v, m)
  | none => (none, m ++ [(k, none)])

/-- `WorkflowGraph::addJob`: allocate a `Job` and assign its pointer into the
name map (overwriting any previous entry). -/
def addJob (st : BuilderState) (name : String) (t : Int) : BuilderState :=
  { jobMap := mapSet st.jobMap name (some st.arena.length)
    arena := st.arena ++ [⟨name, t⟩]
    edges := st.edges }

/-- `WorkflowGraph::addCommunication`: reads `jobs[fromJobName]` and
`jobs[toJobName]` through `operator[]` (inserting null entries for unknown
names) and appends the new edge. There is no validation and no error
path. -/
def addCommunication (st : BuilderState) (fromName toName : String) (t : Int) :
    BuilderState :=
  let pf := mapIndex st.jobMap fromName
  let pt := mapIndex pf.2 toName
  { jobMap := pt.2
    arena := st.arena
    edges := st.edges ++ [(pf.1, pt.1, t)] }

/-- The empty graph under construction. -/
def emptyBuilder : BuilderState := ⟨[], [], []⟩

/-!
## Concrete input graphs used for evaluations

Handles: index into the job list (`0` = first added job, …).
-/

/-- Two jobs `A(5)`, `B(3)` with one edge `A → B` of communication time 2
(the spec's `K = 1 ⇒ makespan 8` example). -/
def gPair : WorkflowGraph := ⟨[⟨"A", 5⟩, ⟨"B", 3⟩], [⟨0, 1, 2⟩]⟩

/-- The spec's cyclic example `A → B → A`. -/
def gCyclic : WorkflowGraph := ⟨[⟨"A", 5⟩, ⟨"B", 3⟩], [⟨0, 1, 2⟩, ⟨1, 0, 2⟩]⟩

/-- A single job `A(5)` and no edges. -/
def gSingle : WorkflowGraph := ⟨[⟨"A", 5⟩], []⟩

/-- The empty workflow graph. -/
def gEmpty : WorkflowGraph := ⟨[], []⟩

/-!
## Specification predicates and loop invariants
-/

/-- A handle list is topologically ordered for `g`: whenever an edge's
target occurs at some position, the edge's source occurs strictly earlier. -/
def TopoOrdered (g : WorkflowGraph) (l : List Nat) : Prop :=
  ∀ c ∈ g.comms, ∀ j : Nat, l.get? j = some c.toJob →
    ∃ i : Nat, i < j ∧ l.get? i = some c.fromJob

/-- Maximum of a list of integers, taken as `0` for the empty list. Used to
state the C9 critical-weight recurrence. -/
def maxOr0 : List Int → Int
  | [] => 0
  | x :: xs => xs.foldl max x

/-- The final load of a machine as observable from the returned placements:
the maximum finish time over the placements assigned to it (`0` if the
machine received no job). Used to state C7's makespan characterization. -/
def machineLoad (ord : List ScheduledJob) (m : Nat) : Int :=
  ((ord.filter (fun p => p.machineId == m)).map (fun p => p.finishTime)).foldl max 0

/-- Number of incoming communications of `v` whose source has already been
emitted (lies in `em`). -/
def inFrom (g : WorkflowGraph) (em : List Nat) (v : Nat) : Nat :=
  ((inComms g v).filter (fun c => decide (c.fromJob ∈ em))).length

/-- Invariant of the Kahn loop of `topologicalSort`: `deg` is the tracked
`inDegrees` map, `pq` the priority-queue contents, `em` the jobs emitted so
far. The queue holds exactly the unemitted jobs whose tracked indegree is
zero, and the tracked indegree counts the in-edges from unemitted jobs. -/
structure KInv (g : WorkflowGraph) (deg : Nat → Int) (pq em : List Nat) : Prop where
  nodup : (pq ++ em).Nodup
  pq_lt : ∀ v ∈ pq, v < g.jobs.length
  em_lt : ∀ v ∈ em, v < g.jobs.length
  deg_eq : ∀ v, v < g.jobs.length →
    deg v = ((inComms g v).length : Int) - (inFrom g em v : Int)
  mem_pq : ∀ v, v < g.jobs.length → (v ∈ pq ↔ (deg v = 0 ∧ v ∉ em))
  em_deg : ∀ v ∈ em, deg v = 0

/-- Invariant of the greedy placement loop of `schedule()` after the jobs in
`placed` have been processed. -/
structure SInv (g : WorkflowGraph) (K : Nat) (placed : List Nat) (st : SchedState) :
    Prop where
  len : st.mft.length = K
  map_job : st.order.map (fun p => p.job) = placed
  jft_eq : ∀ p ∈ st.order, st.jft p.job = p.finishTime
  j2m_eq : ∀ p ∈ st.order, st.j2m p.job = p.machineId
  mid_lt : ∀ p ∈ st.order, p.machineId < K
  sched_le : ∀ p ∈ st.order, p.scheduleTime ≤ p.startTime
  start0 : ∀ p ∈ st.order, 0 ≤ p.startTime
  fin_mft : ∀ p ∈ st.order, p.finishTime ≤ st.mft.getD p.machineId 0
  mft0 : ∀ m, m < K → 0 ≤ st.mft.getD m 0
  mft_src : ∀ m, m < K → st.mft.getD m 0 = 0 ∨
    ∃ p ∈ st.order, p.machineId = m ∧ st.mft.getD m 0 = p.finishTime
  closed : ∀ c ∈ g.comms, c.toJob ∈ placed → c.fromJob ∈ placed
  prec : ∀ p ∈ st.order, ∀ c ∈ g.comms, c.toJob = p.job →
    ∀ q ∈ st.order, q.job = c.fromJob →
      (q.machineId = p.machineId → q.finishTime ≤ p.startTime) ∧
      (q.machineId ≠ p.machineId → q.finishTime + c.commTime ≤ p.startTime)

/-!
## Generic list/fold helpers
-/

/-- A fold that at each step keeps either the accumulator or the new element
ends on a member of the initial value consed onto the list. -/
theorem foldl_pick_mem {α : Type} (f : α → α → α)
    (hf : ∀ a b, f a b = a ∨ f a b = b) :
    ∀ (l : List α) (c : α), l.foldl f c ∈ c :: l := by
  intro l
  induction l with
  | nil => intro c; simp
  | cons x xs ih =>
    intro c
    have h1 := ih (f c x)
    rcases hf c x with h | h <;> rw [h] at h1 <;>
      simp only [List.foldl_cons, h] <;>
      rcases List.mem_cons.mp h1 with h3 | h3 <;> simp [h3]

/-- A fold whose step never decreases the accumulator is bounded below by
its initial value. -/
theorem foldl_ge_init {α : Type} (f : Int → α → Int)
    (hf : ∀ a x, a ≤ f a x) : ∀ (l : List α) (init : Int), init ≤ l.foldl f init := by
  intro l
  induction l with
  | nil => intro i; simp
  | cons x xs ih => intro i; exact le_trans (hf i x) (ih (f i x))

/-- A fold whose step never decreases the accumulator is bounded below by
any lower bound forced by one of its elements. -/
theorem foldl_ge_elem {α : Type} (f : Int → α → Int)
    (hf : ∀ a x, a ≤ f a x) {t : Int} :
    ∀ (l : List α) (init : Int) (x : α), x ∈ l → (∀ a, t ≤ f a x) →
      t ≤ l.foldl f init := by
  intro l
  induction l with
  | nil => intro _ x hx; simp at hx
  | cons y ys ih =>
    intro i x hx ht
    rcases List.mem_cons.mp hx with rfl | hx
    · exact le_trans (ht i) (foldl_ge_init f hf ys (f i x))
    · exact ih (f i y) x hx ht

/-- A filter keeps the full length exactly when every element passes. -/
theorem length_filter_eq_length_iff {α : Type} (p : α → Bool) :
    ∀ l : List α, ((l.filter p).length = l.length ↔ ∀ x ∈ l, p x = true) := by
  intro l
  induction l with
  | nil => simp
  | cons x xs ih =>
    by_cases hp : p x
    · simp [List.filter_cons, hp, ih]
    · have hle := List.length_filter_le p xs
      simp only [List.filter_cons, hp]
      constructor
      · intro h; simp at h; omega
      · intro h
        exact absurd (h x (List.mem_cons_self x xs)) (by simp [hp])

/-- Filtering by a pointwise-disjoint disjunction splits additively. -/
theorem length_filter_or_disjoint {α : Type} (p q : α → Bool) :
    ∀ l : List α, (∀ x ∈ l, ¬(p x = true ∧ q x = true)) →
      (l.filter (fun x => p x || q x)).length
        = (l.filter p).length + (l.filter q).length := by
  intro l
  induction l with
  | nil => intro _; simp
  | cons x xs ih =>
    intro h
    have hx := h x (List.mem_cons_self x xs)
    have ihh := ih (fun y hy => h y (List.mem_cons_of_mem x hy))
    by_cases hp : p x <;> by_cases hq : q x
    · exact absurd ⟨hp, hq⟩ hx
    · simp [List.filter_cons, hp, hq, ihh]; omega
    · simp [List.filter_cons, hp, hq, ihh]; omega
    · simp [List.filter_cons, hp, hq, ihh]

/-- `getD` after `set` at the written index. -/
theorem getD_set_self {α : Type} (d a : α) :
    ∀ (l : List α) (i : Nat), i < l.length → (l.set i a).getD i d = a := by
  intro l
  induction l with
  | nil => intro i h; simp at h
  | cons x xs ih =>
    intro i h
    cases i with
    | zero => rfl
    | succ n => exact ih n (by simpa using h)

/-- `getD` after `set` at another index. -/
theorem getD_set_ne {α : Type} (d a : α) :
    ∀ (l : List α) (i j : Nat), i ≠ j → (l.set i a).getD j d = l.getD j d := by
  intro l
  induction l with
  | nil => intro i j _; simp [List.set]
  | cons x xs ih =>
    intro i j hij
    cases i with
    | zero =>
      cases j with
      | zero => exact absurd rfl hij
      | succ m => rfl
    | succ n =>
      cases j with
      | zero => rfl
      | succ m => exact ih n m (by omega)

/-- `getD` on a replicated list is the replicated value or the default. -/
theorem getD_replicate_zero : ∀ (K m : Nat), (List.replicate K (0 : Int)).getD m 0 = 0 := by
  intro K
  induction K with
  | zero => intro m; cases m <;> rfl
  | succ n ih =>
    intro m
    cases m with
    | zero => rfl
    | succ k => exact ih k

/-- Reading every position of a list with `getD` reproduces the list. -/
theorem map_getD_range {α : Type} (d : α) :
    ∀ l : List α, (List.range l.length).map (fun m => l.getD m d) = l := by
  intro l
  induction l with
  | nil => rfl
  | cons x xs ih =>
    have h1 : (x :: xs).length = xs.length + 1 := rfl
    rw [h1, List.range_succ_eq_map, List.map_cons, List.map_map]
    have h2 : ((fun m => (x :: xs).getD m d) ∘ Nat.succ) = fun m => xs.getD m d := by
      funext m; rfl
    rw [h2, ih]
    rfl

/-- The running-maximum conditional is `max`. -/
theorem if_lt_eq_max (a b : Int) : (if a < b then b else a) = max a b := by
  by_cases h : a < b
  · simp [h, max_eq_right (le_of_lt h)]
  · simp [h, max_eq_left (le_of_not_lt h)]

/-- `makespanOf` is a left fold of `max`. -/
theorem makespanOf_eq_foldl_max : ∀ (l : List Int) (i : Int),
    l.foldl (fun acc t => if acc < t then t else acc) i = l.foldl max i := by
  have h : (fun acc t : Int => if acc < t then t else acc) = max := by
    funext a b; exact if_lt_eq_max a b
  intro l i
  rw [h]

/-- The initial value bounds a `max` fold from below. -/
theorem le_foldl_max (l : List Int) (i : Int) : i ≤ l.foldl max i :=
  foldl_ge_init max (fun a x => le_max_left a x) l i

/-- Every element bounds a `max` fold from below. -/
theorem elem_le_foldl_max (l : List Int) (i x : Int) (hx : x ∈ l) :
    x ≤ l.foldl max i :=
  foldl_ge_elem max (fun a y => le_max_left a y) l i x hx (fun a => le_max_right a x)

/-- A `max` fold returns its initial value or one of the elements. -/
theorem foldl_max_mem (l : List Int) (i : Int) :
    l.foldl max i = i ∨ l.foldl max i ∈ l := by
  have h := foldl_pick_mem max max_choice l i
  rcases List.mem_cons.mp h with h1 | h1
  · exact Or.inl h1
  · exact Or.inr h1

/-- The makespan scan over an all-zero machine vector is `0`. -/
theorem makespanOf_replicate_zero (K : Nat) : makespanOf (List.replicate K 0) = 0 := by
  unfold makespanOf
  rw [makespanOf_eq_foldl_max]
  rcases foldl_max_mem (List.replicate K 0) 0 with h | h
  · exact h
  · exact List.eq_of_mem_replicate h

/-!
## Placement-selection facts
-/

/-- The best-schedule scan returns one of the candidates. -/
theorem pickBest_mem : ∀ (l : List ScheduledJob) (b : ScheduledJob),
    pickBest l = some b → b ∈ l := by
  intro l b h
  cases l with
  | nil => simp [pickBest] at h
  | cons c cs =>
    simp only [pickBest, Option.some.injEq] at h
    rw [← h]
    exact foldl_pick_mem _
      (fun a s => by by_cases hs : a.finishTime > s.finishTime <;> simp [hs]) cs c

/-- Every candidate comes from a machine index below `K`. -/
theorem candidates_mem {g : WorkflowGraph} {K : Nat} {st : SchedState} {j : Nat}
    {b : ScheduledJob} (hb : b ∈ candidates g K st j) :
    ∃ m, m < K ∧ b = mkCandidate g st j m := by
  rcases List.mem_map.mp hb with ⟨m, hm, hb2⟩
  exact ⟨m, List.mem_range.mp hm, hb2.symm⟩

/-- Unfolding of a successful `scheduleStep`. -/
theorem scheduleStep_some {g : WorkflowGraph} {K : Nat} {st st2 : SchedState} {j : Nat}
    (h : scheduleStep g K st j = some st2) :
    ∃ best, pickBest (candidates g K st j) = some best ∧
      st2 = { mft := st.mft.set best.machineId best.finishTime
              jft := fun v => if v = j then best.finishTime else st.jft v
              j2m := fun v => if v = j then best.machineId else st.j2m v
              order := st.order ++ [best] } := by
  unfold scheduleStep at h
  cases hp : pickBest (candidates g K st j) with
  | none => rw [hp] at h; exact absurd h (by simp)
  | some best =>
    rw [hp] at h
    simp only [Option.some.injEq] at h
    exact ⟨best, rfl, h.symm⟩

/-- Every placement a `scheduleLoop` run appends satisfies
`finishTime = startTime + executionTime` (it is one of the per-machine
candidates, which are built that way). -/
theorem scheduleLoop_fin_eq (g : WorkflowGraph) (K : Nat) :
    ∀ (js : List Nat) (st st2 : SchedState),
      scheduleLoop g K js st = some st2 →
      ∀ p ∈ st2.order, p ∈ st.order ∨ p.finishTime = p.startTime + execTime g p.job := by
  intro js
  induction js with
  | nil =>
    intro st st2 h p hp
    simp only [scheduleLoop, Option.some.injEq] at h
    subst h
    exact Or.inl hp
  | cons j rest ih =>
    intro st st2 h p hp
    simp only [scheduleLoop] at h
    cases hs : scheduleStep g K st j with
    | none => rw [hs] at h; exact absurd h (by simp)
    | some st1 =>
      rw [hs] at h
      rcases scheduleStep_some hs with ⟨best, hbp, hst1⟩
      rcases ih st1 st2 h p hp with h1 | h1
      · rw [hst1] at h1
        simp only [List.mem_append, List.mem_singleton] at h1
        rcases h1 with h1 | h1
        · exact Or.inl h1
        · rcases candidates_mem (pickBest_mem _ _ hbp) with ⟨m, _, hbm⟩
          rw [h1, hbm]
          exact Or.inr rfl
      · exact Or.inr h1

/-- C8: every placement in the sequence returned by `schedule()` records a
finish time exactly equal to its start time plus the job's execution time. -/
theorem schedule_finish_eq_start_plus_exec (g : WorkflowGraph) (K : Nat)
    (ms : Int) (ord : List ScheduledJob) (h : schedule g K = some (ms, ord)) :
    ∀ p ∈ ord, p.finishTime = p.startTime + execTime g p.job := by
  unfold schedule at h
  cases hl : scheduleLoop g K (topologicalSort g) (initState K) with
  | none => rw [hl] at h; exact absurd h (by simp)
  | some st =>
    rw [hl] at h
    simp only [Option.some.injEq, Prod.mk.injEq] at h
    intro p hp
    have hmem : p ∈ st.order := by rw [h.2]; exact hp
    rcases scheduleLoop_fin_eq g K _ _ _ hl p hmem with h1 | h1
    · simp [initState] at h1
    · exact h1

/-- Witness for C8 at the second placement of `gPair` with `K = 1`. -/
theorem schedule_finish_eq_start_plus_exec_witness :
    (⟨1, 0, 5, 5, 8⟩ : ScheduledJob).finishTime
      = (⟨1, 0, 5, 5, 8⟩ : ScheduledJob).startTime
        + execTime gPair (⟨1, 0, 5, 5, 8⟩ : ScheduledJob).job :=
  schedule_finish_eq_start_plus_exec gPair 1 8
    [⟨0, 0, 0, 0, 5⟩, ⟨1, 0, 5, 5, 8⟩] rfl ⟨1, 0, 5, 5, 8⟩ (by decide)

/-- C3: on the cyclic input `A → B → A` the scheduler raises no error at
all: the topological order silently comes back empty and `schedule()`
returns makespan `0` with an empty placement list, a strict subset of the
two jobs (evidence for the missing `|topOrder| < |jobs|` check). -/
theorem schedule_cyclic_silent_partial :
    schedule gCyclic 1 = some (0, []) ∧ topologicalSort gCyclic = [] ∧
      gCyclic.jobs.length = 2 :=
  ⟨rfl, rfl, rfl⟩

/-- C5: `addCommunication` with the unknown source name `"X"` silently
creates a phantom null map entry `("X", none)` (the `operator[]`
default-construction of a null `Job*`) and appends an edge whose source
pointer is null — the graph is modified and no error path exists. -/
theorem addCommunication_unknown_phantom :
    addCommunication (addJob emptyBuilder "A" 5) "X" "A" 1 =
      ⟨[("A", some 0), ("X", none)], [⟨"A", 5⟩], [(none, some 0, 1)]⟩ ∧
    mapFind (addCommunication (addJob emptyBuilder "A" 5) "X" "A" 1).jobMap "X"
      = some none :=
  ⟨rfl, rfl⟩

/-- C6: the `WorkflowSchedule` constructor accepts the machine count `0`
without any validation (it merely stores it), and the subsequent
`schedule()` call on a one-job graph runs into the undefined behaviour of
`candidateSchedules.front()` on an empty vector (modelled as `none`) instead
of a distinguishable `InvalidMachineCount` error at construction. -/
theorem constructor_accepts_nonpositive_K :
    mkWorkflowSchedule gSingle 0 = ⟨gSingle, 0⟩ ∧
    runSchedule (mkWorkflowSchedule gSingle 0) = none :=
  ⟨rfl, rfl⟩

/-- C10: scheduling a graph with no jobs returns makespan `0` and an empty
placement sequence for every machine count `K ≥ 1`, without error. -/
theorem schedule_empty_graph (g : WorkflowGraph) (K : Nat) (hg : g.jobs = [])
    (hK : 1 ≤ K) : schedule g K = some (0, []) := by
  have ht : topologicalSort g = [] := by
    unfold topologicalSort
    rw [hg]
    rfl
  unfold schedule
  rw [ht]
  simp only [scheduleLoop]
  have hm : makespanOf (initState K).mft = 0 := makespanOf_replicate_zero K
  rw [hm]
  rfl

/-- Witness for C10 at the empty graph with `K = 1`. -/
theorem schedule_empty_graph_witness : schedule gEmpty 1 = some (0, []) :=
  schedule_empty_graph gEmpty 1 rfl (by decide)

/-!
## Priority-queue extraction facts
-/

/-- The priority scan returns a member of the queue. -/
theorem bestOf_mem {f : Nat → Int} :
    ∀ {l : List Nat} {b : Nat}, bestOf f l = some b → b ∈ l := by
  intro l b h
  cases l with
  | nil => simp [bestOf] at h
  | cons x xs =>
    simp only [bestOf, Option.some.injEq] at h
    rw [← h]
    exact foldl_pick_mem _ (fun a y => by by_cases hy : f a < f y <;> simp [hy]) xs x

/-- `popMax` fails exactly on the empty queue. -/
theorem popMax_eq_none {f : Nat → Int} {l : List Nat} (h : popMax f l = none) :
    l = [] := by
  cases l with
  | nil => rfl
  | cons x xs => simp [popMax, bestOf] at h

/-- A successful `popMax` yields a member and erases its first occurrence. -/
theorem popMax_eq_some {f : Nat → Int} {l rest : List Nat} {u : Nat}
    (h : popMax f l = some (u, rest)) : u ∈ l ∧ rest = l.erase u := by
  unfold popMax at h
  cases hb : bestOf f l with
  | none => rw [hb] at h; exact absurd h (by simp)
  | some b =>
    rw [hb] at h
    simp only [Option.some.injEq, Prod.mk.injEq] at h
    rcases h with ⟨h1, h2⟩
    subst h1
    exact ⟨bestOf_mem hb, h2.symm⟩

/-!
## Indegree-decrement facts (`processSuccs`)
-/

/-- The final tracked indegree after the decrement sweep: one unit per
occurrence of the job among the successors. -/
theorem processSuccs_deg :
    ∀ (succs : List Nat) (deg : Nat → Int) (w : Nat),
      (processSuccs succs deg).1 w = deg w - (succs.count w : Int) := by
  intro succs
  induction succs with
  | nil => intro deg w; simp [processSuccs]
  | cons v vs ih =>
    intro deg w
    simp only [processSuccs]
    rw [ih]
    by_cases hw : w = v
    · subst hw
      rw [List.count_cons_self]
      simp only [if_pos rfl]
      push_cast
      ring
    · rw [List.count_cons_of_ne hw]
      simp only [if_neg hw]

/-- Characterization of the pushed jobs. -/
theorem processSuccs_pushed_iff :
    ∀ (succs : List Nat) (deg : Nat → Int) (w : Nat),
      (w ∈ (processSuccs succs deg).2 ↔
        w ∈ succs ∧ 1 ≤ deg w ∧ deg w ≤ (succs.count w : Int)) := by
  intro succs
  induction succs with
  | nil => intro deg w; simp [processSuccs]
  | cons v vs ih =>
    intro deg w
    have hcnt : (0 : Int) ≤ (vs.count w : Int) := Int.natCast_nonneg _
    simp only [processSuccs]
    by_cases hw : w = v
    · subst hw
      rw [List.count_cons_self]
      by_cases hd : deg w - 1 = 0
      · rw [if_pos hd]
        constructor
        · intro _
          refine ⟨List.mem_cons_self _ _, by omega, by push_cast; omega⟩
        · intro _
          exact List.mem_cons_self _ _
      · rw [if_neg hd, ih]
        simp only [if_pos rfl]
        constructor
        · rintro ⟨hmem, h1, h2⟩
          exact ⟨List.mem_cons_of_mem _ hmem, by omega, by push_cast at h2 ⊢; omega⟩
        · rintro ⟨_, h1, h2⟩
          have hc1 : 1 ≤ (vs.count w : Int) := by push_cast at h2; omega
          have hvs : w ∈ vs := by
            refine List.count_pos_iff.mp ?_
            exact_mod_cast lt_of_lt_of_le Int.zero_lt_one hc1
          exact ⟨hvs, by omega, by push_cast at h2 ⊢; omega⟩
    · rw [List.count_cons_of_ne hw]
      have hmemiff : w ∈ v :: vs ↔ w ∈ vs := by simp [hw]
      by_cases hd : deg v - 1 = 0
      · rw [if_pos hd]
        rw [List.mem_cons]
        rw [ih]
        simp only [if_neg hw, hmemiff]
        constructor
        · rintro (h | ⟨hmem, h1, h2⟩)
          · exact absurd h hw
          · exact ⟨hmem, h1, h2⟩
        · rintro ⟨hmem, h1, h2⟩
          exact Or.inr ⟨hmem, h1, h2⟩
      · rw [if_neg hd, ih]
        simp only [if_neg hw, hmemiff]

/-- Each job is pushed at most once during one decrement sweep. -/
theorem processSuccs_pushed_nodup :
    ∀ (succs : List Nat) (deg : Nat → Int), (processSuccs succs deg).2.Nodup := by
  intro succs
  induction succs with
  | nil => intro deg; simp [processSuccs]
  | cons v vs ih =>
    intro deg
    simp only [processSuccs]
    by_cases hd : deg v - 1 = 0
    · rw [if_pos hd]
      refine List.nodup_cons.mpr ⟨?_, ih _⟩
      intro hv
      rw [processSuccs_pushed_iff] at hv
      rcases hv with ⟨_, h1, _⟩
      simp at h1
      omega
    · rw [if_neg hd]
      exact ih _

/-- Boolean equality on `Nat` agrees with decidable propositional equality. -/
theorem beq_eq_decide_nat (a b : Nat) : (a == b) = decide (a = b) := by
  by_cases h : a = b <;> simp [h]

/-- Occurrences of `w` among the successors of `u` count the edges `u → w`. -/
theorem count_successors (g : WorkflowGraph) (u w : Nat) :
    (successors g u).count w =
      ((inComms g w).filter (fun c => c.fromJob == u)).length := by
  unfold successors outComms inComms
  rw [List.count_eq_countP, List.countP_map, List.countP_eq_length_filter]
  rw [List.filter_filter, List.filter_filter]
  apply congrArg
  apply List.filter_congr
  intro c _
  simp [Function.comp, beq_eq_decide_nat, Bool.and_comm]

/-- Nobody has been emitted yet: the emitted-source count is zero. -/
theorem inFrom_nil (g : WorkflowGraph) (v : Nat) : inFrom g [] v = 0 := by
  unfold inFrom
  simp

/-- The emitted-source count never exceeds the indegree. -/
theorem inFrom_le (g : WorkflowGraph) (em : List Nat) (v : Nat) :
    inFrom g em v ≤ (inComms g v).length :=
  List.length_filter_le _ _

/-- Emitting one more (fresh) job adds exactly its edge contribution. -/
theorem inFrom_append_single (g : WorkflowGraph) (em : List Nat) (u v : Nat)
    (hu : u ∉ em) :
    inFrom g (em ++ [u]) v
      = inFrom g em v + ((inComms g v).filter (fun c => c.fromJob == u)).length := by
  unfold inFrom
  have hcong : (inComms g v).filter (fun c => decide (c.fromJob ∈ em ++ [u]))
      = (inComms g v).filter
          (fun c => decide (c.fromJob ∈ em) || (c.fromJob == u)) := by
    apply List.filter_congr
    intro c _
    rw [beq_eq_decide_nat]
    simp [List.mem_append]
  rw [hcong]
  exact length_filter_or_disjoint _ _ _
    (fun c _ hc => hu (by
      rcases hc with ⟨h1, h2⟩
      have h2e : c.fromJob = u := by simpa using h2
      rw [← h2e]
      simpa using h1))

/-- A zero tracked indegree means every in-edge source is emitted. -/
theorem inFrom_full (g : WorkflowGraph) (em : List Nat) (v : Nat)
    (h : inFrom g em v = (inComms g v).length) :
    ∀ c ∈ inComms g v, c.fromJob ∈ em := by
  intro c hc
  have := (length_filter_eq_length_iff
    (fun c : Communication => decide (c.fromJob ∈ em)) (inComms g v)).mp h c hc
  simpa using this

/-- A positive tracked indegree exhibits an unemitted in-edge source. -/
theorem inFrom_lt (g : WorkflowGraph) (em : List Nat) (v : Nat)
    (h : inFrom g em v ≠ (inComms g v).length) :
    ∃ c ∈ inComms g v, c.fromJob ∉ em := by
  by_contra hno
  push_neg at hno
  exact h ((length_filter_eq_length_iff _ _).mpr (fun c hc => by
    simpa using hno c hc))

/-- Successor handles are valid on a well-formed graph. -/
theorem successors_lt {g : WorkflowGraph} (hwf : WFGraph g) {u w : Nat}
    (hw : w ∈ successors g u) : w < g.jobs.length := by
  rcases List.mem_map.mp hw with ⟨c, hc, hcw⟩
  have hcc : c ∈ g.comms := (List.mem_filter.mp hc).1
  rw [← hcw]
  exact (hwf c hcc).2

/-- Tracked indegrees are non-negative under the invariant. -/
theorem KInv_deg_nonneg {g : WorkflowGraph} {deg : Nat → Int} {pq em : List Nat}
    (hinv : KInv g deg pq em) : ∀ v, v < g.jobs.length → 0 ≤ deg v := by
  intro v hv
  rw [hinv.deg_eq v hv]
  have := inFrom_le g em v
  omega

/-- A zero tracked indegree means all in-edge sources are already emitted. -/
theorem KInv_deg_zero_sources {g : WorkflowGraph} {deg : Nat → Int} {pq em : List Nat}
    (hinv : KInv g deg pq em) {v : Nat} (hv : v < g.jobs.length) (hdv : deg v = 0) :
    ∀ c ∈ inComms g v, c.fromJob ∈ em := by
  apply inFrom_full
  have h := hinv.deg_eq v hv
  have h2 := inFrom_le g em v
  omega

/-- If all in-edge sources of `v` are emitted and `u` is not, then `u` has no
edge into `v`. -/
theorem edges_from_u_eq_zero {g : WorkflowGraph} {em : List Nat} {u v : Nat}
    (hall : ∀ c ∈ inComms g v, c.fromJob ∈ em) (hu : u ∉ em) :
    ((inComms g v).filter (fun c => c.fromJob == u)).length = 0 := by
  rw [List.length_eq_zero, List.filter_eq_nil_iff]
  intro c hc hcu
  have hce : c.fromJob = u := by simpa using hcu
  exact hu (hce ▸ hall c hc)

/-- One iteration of the Kahn loop preserves the invariant; moreover the
popped job is a valid unemitted handle whose predecessors are all emitted. -/
theorem KInv_step {g : WorkflowGraph} (hwf : WFGraph g) {deg : Nat → Int}
    {pq em rest : List Nat} {u : Nat} {f : Nat → Int}
    (hinv : KInv g deg pq em) (hpop : popMax f pq = some (u, rest)) :
    KInv g (processSuccs (successors g u) deg).1
      (rest ++ (processSuccs (successors g u) deg).2) (em ++ [u]) ∧
    (∀ c ∈ inComms g u, c.fromJob ∈ em) ∧ u < g.jobs.length ∧ u ∉ em := by
  obtain ⟨humem, hrest⟩ := popMax_eq_some hpop
  have hu_lt : u < g.jobs.length := hinv.pq_lt u humem
  obtain ⟨hdegu, huem⟩ := (hinv.mem_pq u hu_lt).mp humem
  have hsrc : ∀ c ∈ inComms g u, c.fromJob ∈ em :=
    KInv_deg_zero_sources hinv hu_lt hdegu
  have hpq_nodup : pq.Nodup := hinv.nodup.of_append_left
  have hem_nodup : em.Nodup := hinv.nodup.of_append_right
  have hdisj : pq.Disjoint em := (List.nodup_append.mp hinv.nodup).2.2
  have hrest_sub : rest ⊆ pq := by rw [hrest]; exact List.erase_subset _ _
  have hrest_nodup : rest.Nodup := by
    rw [hrest]; exact (List.erase_sublist _ _).nodup hpq_nodup
  have hmem_rest : ∀ v : Nat, v ∈ rest ↔ v ≠ u ∧ v ∈ pq := by
    intro v; rw [hrest]; exact hpq_nodup.mem_erase_iff
  have hpush_succ : ∀ w ∈ (processSuccs (successors g u) deg).2,
      w ∈ successors g u ∧ 1 ≤ deg w ∧ deg w ≤ ((successors g u).count w : Int) :=
    fun w hw => (processSuccs_pushed_iff (successors g u) deg w).mp hw
  have hpush_lt : ∀ w ∈ (processSuccs (successors g u) deg).2, w < g.jobs.length :=
    fun w hw => successors_lt hwf (hpush_succ w hw).1
  have hpush_not_pq : ∀ w ∈ (processSuccs (successors g u) deg).2, w ∉ pq := by
    intro w hw hwpq
    have h0 := (hinv.mem_pq w (hpush_lt w hw)).mp hwpq
    have h1 := (hpush_succ w hw).2.1
    omega
  have hpush_not_em : ∀ w ∈ (processSuccs (successors g u) deg).2, w ∉ em := by
    intro w hw hwem
    have h0 := hinv.em_deg w hwem
    have h1 := (hpush_succ w hw).2.1
    omega
  have hpush_ne_u : ∀ w ∈ (processSuccs (successors g u) deg).2, w ≠ u := by
    intro w hw hwu
    have h1 := (hpush_succ w hw).2.1
    rw [hwu] at h1
    omega
  have hdeg2_eq : ∀ v, v < g.jobs.length →
      (processSuccs (successors g u) deg).1 v
        = ((inComms g v).length : Int) - (inFrom g (em ++ [u]) v : Int) := by
    intro v hv
    rw [processSuccs_deg, hinv.deg_eq v hv, inFrom_append_single g em u v huem,
      count_successors]
    push_cast
    ring
  have hedges_em : ∀ v, v < g.jobs.length → deg v = 0 →
      (successors g u).count v = 0 := by
    intro v hv hdv
    rw [count_successors]
    exact edges_from_u_eq_zero (KInv_deg_zero_sources hinv hv hdv) huem
  have hdeg2_of_zero : ∀ v, v < g.jobs.length → deg v = 0 →
      (processSuccs (successors g u) deg).1 v = 0 := by
    intro v hv hdv
    rw [processSuccs_deg, hedges_em v hv hdv, hdv]
    simp
  have hem_deg2 : ∀ v ∈ em ++ [u], (processSuccs (successors g u) deg).1 v = 0 := by
    intro v hvm
    rcases List.mem_append.mp hvm with hv | hv
    · exact hdeg2_of_zero v (hinv.em_lt v hv) (hinv.em_deg v hv)
    · have hvu : v = u := by simpa using hv
      subst hvu
      exact hdeg2_of_zero v hu_lt hdegu
  have hmem2 : ∀ v, v < g.jobs.length →
      (v ∈ rest ++ (processSuccs (successors g u) deg).2 ↔
        ((processSuccs (successors g u) deg).1 v = 0 ∧ v ∉ em ++ [u])) := by
    intro v hv
    constructor
    · intro hvm
      rcases List.mem_append.mp hvm with hvr | hvp
      · obtain ⟨hvne, hvpq⟩ := (hmem_rest v).mp hvr
        obtain ⟨hdv, hvem⟩ := (hinv.mem_pq v hv).mp hvpq
        refine ⟨hdeg2_of_zero v hv hdv, ?_⟩
        intro hmm
        rcases List.mem_append.mp hmm with h | h
        · exact hvem h
        · exact hvne (by simpa using h)
      · obtain ⟨hvs, h1, h2⟩ := hpush_succ v hvp
        have hge : 0 ≤ (processSuccs (successors g u) deg).1 v := by
          rw [hdeg2_eq v hv]
          have := inFrom_le g (em ++ [u]) v
          omega
        have hle : (processSuccs (successors g u) deg).1 v ≤ 0 := by
          rw [processSuccs_deg]
          omega
        refine ⟨by omega, ?_⟩
        intro hmm
        rcases List.mem_append.mp hmm with h | h
        · exact hpush_not_em v hvp h
        · exact hpush_ne_u v hvp (by simpa using h)
    · rintro ⟨hd2, hvm⟩
      have hvem : v ∉ em := fun h => hvm (List.mem_append.mpr (Or.inl h))
      have hvu : v ≠ u := fun h => hvm (List.mem_append.mpr (Or.inr (by simp [h])))
      by_cases hvpq : v ∈ pq
      · exact List.mem_append.mpr (Or.inl ((hmem_rest v).mpr ⟨hvu, hvpq⟩))
      · have hdv_ne : ¬(deg v = 0 ∧ v ∉ em) :=
          fun h => hvpq ((hinv.mem_pq v hv).mpr h)
        have hnn := KInv_deg_nonneg hinv v hv
        have hdv_pos : 1 ≤ deg v := by
          by_cases hz : deg v = 0
          · exact absurd ⟨hz, hvem⟩ hdv_ne
          · omega
        rw [processSuccs_deg] at hd2
        have hvs : v ∈ successors g u := by
          have hcp : 0 < (successors g u).count v := by omega
          exact List.count_pos_iff.mp hcp
        refine List.mem_append.mpr (Or.inr ?_)
        exact (processSuccs_pushed_iff (successors g u) deg v).mpr
          ⟨hvs, hdv_pos, by omega⟩
  have hpn : (processSuccs (successors g u) deg).2.Nodup :=
    processSuccs_pushed_nodup (successors g u) deg
  have hnodup2 :
      ((rest ++ (processSuccs (successors g u) deg).2) ++ (em ++ [u])).Nodup := by
    refine List.nodup_append.mpr ⟨?_, ?_, ?_⟩
    · refine List.nodup_append.mpr ⟨hrest_nodup, hpn, ?_⟩
      intro a har hap
      exact hpush_not_pq a hap (hrest_sub har)
    · refine List.nodup_append.mpr ⟨hem_nodup, List.nodup_singleton u, ?_⟩
      intro a hae hau
      have ha2 : a = u := by simpa using hau
      exact huem (ha2 ▸ hae)
    · intro a ha hb
      rcases List.mem_append.mp ha with har | hap
      · rcases List.mem_append.mp hb with hae | hau
        · exact hdisj (hrest_sub har) hae
        · have ha2 : a = u := by simpa using hau
          subst ha2
          exact ((hmem_rest a).mp har).1 rfl
      · rcases List.mem_append.mp hb with hae | hau
        · exact hpush_not_em a hap hae
        · exact hpush_ne_u a hap (by simpa using hau)
  refine ⟨⟨hnodup2, ?_, ?_, hdeg2_eq, hmem2, hem_deg2⟩, hsrc, hu_lt, huem⟩
  · intro v hvm
    rcases List.mem_append.mp hvm with h | h
    · exact hinv.pq_lt v (hrest_sub h)
    · exact hpush_lt v h
  · intro v hvm
    rcases List.mem_append.mp hvm with h | h
    · exact hinv.em_lt v h
    · have hv2 : v = u := by simpa using h
      exact hv2 ▸ hu_lt

/-- Membership in `inComms` splits into graph membership and target. -/
theorem inComms_mem {g : WorkflowGraph} {v : Nat} {c : Communication}
    (hc : c ∈ inComms g v) : c ∈ g.comms ∧ c.toJob = v := by
  have h := List.mem_filter.mp hc
  exact ⟨h.1, by simpa using h.2⟩

/-- Conversely, a communication into `v` is a member of `inComms g v`. -/
theorem mem_inComms {g : WorkflowGraph} {v : Nat} {c : Communication}
    (hc : c ∈ g.comms) (ht : c.toJob = v) : c ∈ inComms g v :=
  List.mem_filter.mpr ⟨hc, by simp [ht]⟩

/-- A duplicate-free list of naturals below `N` of length at least `N`
contains every natural below `N`. -/
theorem nodup_bounded_full {l : List Nat} {N : Nat} (hn : l.Nodup)
    (hb : ∀ v ∈ l, v < N) (hlen : N ≤ l.length) : ∀ v, v < N → v ∈ l := by
  intro v hv
  have hsub : l.toFinset ⊆ Finset.range N := by
    intro x hx
    rw [Finset.mem_range]
    exact hb x (List.mem_toFinset.mp hx)
  have hcard : (Finset.range N).card ≤ l.toFinset.card := by
    rw [List.toFinset_card_of_nodup hn]
    simpa using hlen
  have heq : l.toFinset = Finset.range N := Finset.eq_of_subset_of_card_le hsub hcard
  have hvm : v ∈ l.toFinset := heq ▸ Finset.mem_range.mpr hv
  exact List.mem_toFinset.mp hvm

/-- Appending a job whose predecessors are all already present preserves
topological orderedness. -/
theorem TopoOrdered_snoc {g : WorkflowGraph} {em : List Nat} {u : Nat}
    (ht : TopoOrdered g em) (hsrc : ∀ c ∈ inComms g u, c.fromJob ∈ em) :
    TopoOrdered g (em ++ [u]) := by
  intro c hc j hj
  by_cases hjlen : j < em.length
  · rw [List.get?_append hjlen] at hj
    rcases ht c hc j hj with ⟨i, hij, hi⟩
    have hilen : i < em.length := by
      rcases List.get?_eq_some.mp hi with ⟨h, _⟩
      exact h
    exact ⟨i, hij, by rw [List.get?_append hilen]; exact hi⟩
  · rw [List.get?_append_right (le_of_not_lt hjlen)] at hj
    cases hje : j - em.length with
    | zero =>
      rw [hje] at hj
      have hju : c.toJob = u := by
        simpa using hj.symm
      have hcin : c ∈ inComms g u := mem_inComms hc hju
      rcases List.mem_iff_get?.mp (hsrc c hcin) with ⟨i, hi⟩
      have hilen : i < em.length := by
        rcases List.get?_eq_some.mp hi with ⟨h, _⟩
        exact h
      refine ⟨i, by omega, ?_⟩
      rw [List.get?_append hilen]
      exact hi
    | succ k =>
      rw [hje] at hj
      simp at hj

/-- Main invariant run of the Kahn loop: the emitted list stays
duplicate-free, in-range and topologically ordered, and once the fuel covers
all jobs, any job missing from the final list has a predecessor that is also
missing (the cycle witness). -/
theorem kahn_spec {g : WorkflowGraph} (hwf : WFGraph g) (f : Nat → Int) :
    ∀ (fuel : Nat) (deg : Nat → Int) (pq em : List Nat),
      KInv g deg pq em →
      TopoOrdered g em →
      (em ++ kahnLoop g f fuel deg pq).Nodup ∧
      (∀ v ∈ kahnLoop g f fuel deg pq, v < g.jobs.length) ∧
      TopoOrdered g (em ++ kahnLoop g f fuel deg pq) ∧
      (g.jobs.length ≤ em.length + fuel →
        ∀ v, v < g.jobs.length → v ∉ em ++ kahnLoop g f fuel deg pq →
          ∃ c ∈ g.comms, c.toJob = v ∧ c.fromJob ∉ em ++ kahnLoop g f fuel deg pq) := by
  intro fuel
  induction fuel with
  | zero =>
    intro deg pq em hinv htopo
    have hred : kahnLoop g f 0 deg pq = [] := rfl
    rw [hred]
    simp only [List.append_nil]
    refine ⟨hinv.nodup.of_append_right, by simp, htopo, ?_⟩
    intro hlen v hv hvm
    exact absurd (nodup_bounded_full hinv.nodup.of_append_right hinv.em_lt
      (by omega) v hv) hvm
  | succ fuel ih =>
    intro deg pq em hinv htopo
    cases hpop : popMax f pq with
    | none =>
      have hpq : pq = [] := popMax_eq_none hpop
      have hred : kahnLoop g f (fuel + 1) deg pq = [] := by
        simp only [kahnLoop, hpop]
      rw [hred]
      simp only [List.append_nil]
      refine ⟨hinv.nodup.of_append_right, by simp, htopo, ?_⟩
      intro _ v hv hvm
      have hdegv : deg v ≠ 0 := by
        intro h0
        have : v ∈ pq := (hinv.mem_pq v hv).mpr ⟨h0, hvm⟩
        rw [hpq] at this
        simp at this
      have hne : inFrom g em v ≠ (inComms g v).length := by
        intro heq
        apply hdegv
        rw [hinv.deg_eq v hv, heq]
        simp
      rcases inFrom_lt g em v hne with ⟨c, hcin, hcf⟩
      rcases inComms_mem hcin with ⟨hcc, hct⟩
      exact ⟨c, hcc, hct, hcf⟩
    | some pr =>
      obtain ⟨u, rest⟩ := pr
      have hred : kahnLoop g f (fuel + 1) deg pq
          = u :: kahnLoop g f fuel (processSuccs (successors g u) deg).1
              (rest ++ (processSuccs (successors g u) deg).2) := by
        simp only [kahnLoop, hpop]
      obtain ⟨hinv2, hsrc, hu_lt, _⟩ := KInv_step hwf hinv hpop
      have htopo2 : TopoOrdered g (em ++ [u]) := TopoOrdered_snoc htopo hsrc
      obtain ⟨ihnodup, ihlt, ihtopo, ihcomp⟩ :=
        ih (processSuccs (successors g u) deg).1
          (rest ++ (processSuccs (successors g u) deg).2) (em ++ [u]) hinv2 htopo2
      rw [hred]
      have hassoc : em ++ u :: kahnLoop g f fuel (processSuccs (successors g u) deg).1
            (rest ++ (processSuccs (successors g u) deg).2)
          = (em ++ [u]) ++ kahnLoop g f fuel (processSuccs (successors g u) deg).1
            (rest ++ (processSuccs (successors g u) deg).2) :=
        List.append_cons em u _
      rw [hassoc]
      refine ⟨ihnodup, ?_, ihtopo, ?_⟩
      · intro v hvm
        rcases List.mem_cons.mp hvm with h | h
        · exact h ▸ hu_lt
        · exact ihlt v h
      · intro hlen v hv hvm
        apply ihcomp ?_ v hv hvm
        have : (em ++ [u]).length = em.length + 1 := by simp
        omega

/-- The initial Kahn state (fresh indegrees, indegree-zero seeds, nothing
emitted) satisfies the loop invariant. -/
theorem KInv_init (g : WorkflowGraph) :
    KInv g (fun v => ((inComms g v).length : Int))
      ((List.range g.jobs.length).filter (fun v => (inComms g v).length == 0))
      [] := by
  refine ⟨?_, ?_, ?_, ?_, ?_, ?_⟩
  · rw [List.append_nil]
    exact (List.nodup_range _).filter _
  · intro v hv
    have h := List.mem_filter.mp hv
    exact List.mem_range.mp h.1
  · intro v hv
    simp at hv
  · intro v hv
    rw [inFrom_nil]
    simp
  · intro v hv
    rw [List.mem_filter, List.mem_range]
    constructor
    · rintro ⟨_, h⟩
      have hz : (inComms g v).length = 0 := by simpa using h
      simp [hz]
    · rintro ⟨h, _⟩
      have hz : (inComms g v).length = 0 := by exact_mod_cast h
      exact ⟨hv, by simp [hz]⟩
  · intro v hv
    simp at hv

/-- The topological order of `schedule()` is duplicate-free, uses valid
handles, and is topologically ordered; any job it misses has a predecessor
it also misses. -/
theorem topologicalSort_spec {g : WorkflowGraph} (hwf : WFGraph g) :
    (topologicalSort g).Nodup ∧
    (∀ v ∈ topologicalSort g, v < g.jobs.length) ∧
    TopoOrdered g (topologicalSort g) ∧
    (∀ v, v < g.jobs.length → v ∉ topologicalSort g →
      ∃ c ∈ g.comms, c.toJob = v ∧ c.fromJob ∉ topologicalSort g) := by
  have h := kahn_spec hwf (criticalWeight g) g.jobs.length
    (fun v => ((inComms g v).length : Int))
    ((List.range g.jobs.length).filter (fun v => (inComms g v).length == 0))
    [] (KInv_init g) (by intro c _ j hj; simp at hj)
  rw [List.nil_append] at h
  obtain ⟨h1, h2, h3, h4⟩ := h
  exact ⟨h1, h2, h3, fun v hv hvm => h4 (by simp) v hv hvm⟩

/-- On an acyclic well-formed graph the topological order contains every
job handle. -/
theorem topologicalSort_complete {g : WorkflowGraph} (hwf : WFGraph g)
    (hacy : Acyclic g) : ∀ v, v < g.jobs.length → v ∈ topologicalSort g := by
  obtain ⟨rank, hrank⟩ := hacy
  have main : ∀ r v, rank v = r → v < g.jobs.length → v ∈ topologicalSort g := by
    intro r
    induction r using Nat.strong_induction_on with
    | _ r ihr =>
      intro v hrv hv
      by_contra hvm
      rcases (topologicalSort_spec hwf).2.2.2 v hv hvm with ⟨c, hcc, hct, hcf⟩
      have hflt : c.fromJob < g.jobs.length := (hwf c hcc).1
      have hrlt : rank c.fromJob < r := by
        rw [← hrv, ← hct]
        exact (hrank c hcc).1
      exact hcf (ihr (rank c.fromJob) hrlt c.fromJob rfl hflt)
  intro v hv
  exact main (rank v) v rfl hv

/-- The placement loop emits exactly one placement per processed job, in
processing order. -/
theorem scheduleLoop_map_job (g : WorkflowGraph) (K : Nat) :
    ∀ (js : List Nat) (st st2 : SchedState),
      scheduleLoop g K js st = some st2 →
      st2.order.map (fun p => p.job) = st.order.map (fun p => p.job) ++ js := by
  intro js
  induction js with
  | nil =>
    intro st st2 h
    simp only [scheduleLoop, Option.some.injEq] at h
    subst h
    simp
  | cons j rest ih =>
    intro st st2 h
    simp only [scheduleLoop] at h
    cases hs : scheduleStep g K st j with
    | none => rw [hs] at h; exact absurd h (by simp)
    | some st1 =>
      rw [hs] at h
      rcases scheduleStep_some hs with ⟨best, hbp, hst1⟩
      have hbj : best.job = j := by
        rcases candidates_mem (pickBest_mem _ _ hbp) with ⟨m, _, hbm⟩
        rw [hbm]
        rfl
      have := ih st1 st2 h
      rw [this, hst1]
      simp [hbj]

/-- Helper facts for the concrete witness graphs. -/
theorem gPair_wf : WFGraph gPair := by
  intro c hc
  simp only [gPair] at hc
  simp at hc
  subst hc
  exact ⟨by decide, by decide⟩

/-- `gPair` carries non-negative times. -/
theorem gPair_nonneg : NonnegTimes gPair := by
  refine ⟨?_, ?_⟩ <;> intro x hx <;> simp only [gPair] at hx <;> simp at hx
  · rcases hx with h | h <;> subst h <;> decide
  · subst hx; decide

/-- `gPair` is acyclic (witnessed by the identity numbering). -/
theorem gPair_acyclic : Acyclic gPair := by
  refine ⟨fun v => v, ?_⟩
  intro c hc
  simp only [gPair] at hc
  simp at hc
  subst hc
  exact ⟨by decide, by decide⟩

/-- C2: for every acyclic input graph, the placement sequence returned by
`schedule()` is a topological order: for every communication edge
`u → v`, the placement of `u` appears strictly before the placement of `v`
in the returned sequence. -/
theorem schedule_order_topological (g : WorkflowGraph) (K : Nat) (hwf : WFGraph g)
    (hacy : Acyclic g) (hK : 1 ≤ K) (ms : Int) (ord : List ScheduledJob)
    (h : schedule g K = some (ms, ord)) :
    ∀ c ∈ g.comms, ∃ i j : Nat, i < j ∧
      (∃ p, ord.get? i = some p ∧ p.job = c.fromJob) ∧
      (∃ q, ord.get? j = some q ∧ q.job = c.toJob) := by
  unfold schedule at h
  cases hl : scheduleLoop g K (topologicalSort g) (initState K) with
  | none => rw [hl] at h; exact absurd h (by simp)
  | some st =>
    rw [hl] at h
    simp only [Option.some.injEq, Prod.mk.injEq] at h
    have hmap : ord.map (fun p => p.job) = topologicalSort g := by
      rw [← h.2]
      rw [scheduleLoop_map_job g K _ _ _ hl]
      simp [initState]
    intro c hc
    have htv : c.toJob < g.jobs.length := (hwf c hc).2
    have hmem : c.toJob ∈ topologicalSort g := topologicalSort_complete hwf hacy _ htv
    rcases List.mem_iff_get?.mp hmem with ⟨j, hj⟩
    rcases (topologicalSort_spec hwf).2.2.1 c hc j hj with ⟨i, hij, hi⟩
    refine ⟨i, j, hij, ?_, ?_⟩
    · rw [← hmap, List.get?_map] at hi
      rcases Option.map_eq_some'.mp hi with ⟨p, hp, hpj⟩
      exact ⟨p, hp, hpj⟩
    · rw [← hmap, List.get?_map] at hj
      rcases Option.map_eq_some'.mp hj with ⟨q, hq, hqj⟩
      exact ⟨q, hq, hqj⟩

/-- Witness for C2 at the edge `A → B` of `gPair` with `K = 1`. -/
theorem schedule_order_topological_witness :
    ∃ i j : Nat, i < j ∧
      (∃ p, ([(⟨0, 0, 0, 0, 5⟩ : ScheduledJob), ⟨1, 0, 5, 5, 8⟩]).get? i = some p ∧
        p.job = (⟨0, 1, 2⟩ : Communication).fromJob) ∧
      (∃ q, ([(⟨0, 0, 0, 0, 5⟩ : ScheduledJob), ⟨1, 0, 5, 5, 8⟩]).get? j = some q ∧
        q.job = (⟨0, 1, 2⟩ : Communication).toJob) :=
  schedule_order_topological gPair 1 gPair_wf gPair_acyclic (by decide) 8
    [⟨0, 0, 0, 0, 5⟩, ⟨1, 0, 5, 5, 8⟩] rfl ⟨0, 1, 2⟩ (by decide)

/-- The step function of `earliestStart` never decreases the accumulator. -/
theorem earliestStart_step_mono (st : SchedState) (m : Nat) :
    ∀ (a : Int) (c : Communication),
      a ≤ (if m = st.j2m c.fromJob then a
           else max a (st.jft c.fromJob + c.commTime)) := by
  intro a c
  by_cases hc : m = st.j2m c.fromJob
  · rw [if_pos hc]
  · rw [if_neg hc]
    exact le_max_left _ _

/-- `earliestStart` dominates the machine's current finish time. -/
theorem earliestStart_ge_mft (g : WorkflowGraph) (st : SchedState) (j m : Nat) :
    st.mft.getD m 0 ≤ earliestStart g st j m :=
  foldl_ge_init _ (earliestStart_step_mono st m) _ _

/-- `earliestStart` dominates every non-skipped predecessor bound. -/
theorem earliestStart_ge_pred {g : WorkflowGraph} {st : SchedState} {j m : Nat}
    {c : Communication} (hc : c ∈ inComms g j) (hne : m ≠ st.j2m c.fromJob) :
    st.jft c.fromJob + c.commTime ≤ earliestStart g st j m := by
  apply foldl_ge_elem _ (earliestStart_step_mono st m) _ _ c hc
  intro a
  rw [if_neg hne]
  exact le_max_right _ _

/-- One placement step preserves the scheduling invariant. -/
theorem SInv_step (g : WorkflowGraph) (K : Nat) (hexec : ∀ v : Nat, 0 ≤ execTime g v)
    {placed : List Nat} {st : SchedState} {j : Nat} {best : ScheduledJob} {m : Nat}
    (hinv : SInv g K placed st)
    (hmK : m < K)
    (hbm : best = mkCandidate g st j m)
    (hj_not_placed : j ∉ placed)
    (hpred : ∀ c ∈ g.comms, c.toJob = j → c.fromJob ∈ placed) :
    SInv g K (placed ++ [j])
      { mft := st.mft.set best.machineId best.finishTime
        jft := fun v => if v = j then best.finishTime else st.jft v
        j2m := fun v => if v = j then best.machineId else st.j2m v
        order := st.order ++ [best] } := by
  have hb_job : best.job = j := by rw [hbm]; rfl
  have hb_mid : best.machineId = m := by rw [hbm]; rfl
  have hb_sch : best.scheduleTime = st.mft.getD m 0 := by rw [hbm]; rfl
  have hb_start : best.startTime = earliestStart g st j m := by rw [hbm]; rfl
  have hb_fin : best.finishTime = earliestStart g st j m + execTime g j := by
    rw [hbm]; rfl
  have hest_ge : st.mft.getD m 0 ≤ earliestStart g st j m := earliestStart_ge_mft g st j m
  have hmlen : m < st.mft.length := by rw [hinv.len]; exact hmK
  have hfin_ge : st.mft.getD m 0 ≤ best.finishTime := by
    rw [hb_fin]
    have := hexec j
    omega
  have hp_job_ne : ∀ p ∈ st.order, p.job ≠ j := by
    intro p hp hpj
    apply hj_not_placed
    rw [← hinv.map_job]
    exact List.mem_map.mpr ⟨p, hp, hpj⟩
  refine ⟨?_, ?_, ?_, ?_, ?_, ?_, ?_, ?_, ?_, ?_, ?_, ?_⟩
  · -- len
    show (st.mft.set best.machineId best.finishTime).length = K
    rw [List.length_set]
    exact hinv.len
  · -- map_job
    show (st.order ++ [best]).map (fun p => p.job) = placed ++ [j]
    rw [List.map_append, hinv.map_job]
    simp [hb_job]
  · -- jft_eq
    intro p hp
    rcases List.mem_append.mp hp with hpo | hpb
    · have hne := hp_job_ne p hpo
      show (if p.job = j then best.finishTime else st.jft p.job) = p.finishTime
      rw [if_neg hne]
      exact hinv.jft_eq p hpo
    · have hpb2 : p = best := by simpa using hpb
      subst hpb2
      show (if p.job = j then p.finishTime else st.jft p.job) = p.finishTime
      rw [if_pos hb_job]
  · -- j2m_eq
    intro p hp
    rcases List.mem_append.mp hp with hpo | hpb
    · have hne := hp_job_ne p hpo
      show (if p.job = j then best.machineId else st.j2m p.job) = p.machineId
      rw [if_neg hne]
      exact hinv.j2m_eq p hpo
    · have hpb2 : p = best := by simpa using hpb
      subst hpb2
      show (if p.job = j then p.machineId else st.j2m p.job) = p.machineId
      rw [if_pos hb_job]
  · -- mid_lt
    intro p hp
    rcases List.mem_append.mp hp with hpo | hpb
    · exact hinv.mid_lt p hpo
    · have hpb2 : p = best := by simpa using hpb
      subst hpb2
      rw [hb_mid]
      exact hmK
  · -- sched_le
    intro p hp
    rcases List.mem_append.mp hp with hpo | hpb
    · exact hinv.sched_le p hpo
    · have hpb2 : p = best := by simpa using hpb
      subst hpb2
      rw [hb_sch, hb_start]
      exact hest_ge
  · -- start0
    intro p hp
    rcases List.mem_append.mp hp with hpo | hpb
    · exact hinv.start0 p hpo
    · have hpb2 : p = best := by simpa using hpb
      subst hpb2
      rw [hb_start]
      exact le_trans (hinv.mft0 m hmK) hest_ge
  · -- fin_mft
    intro p hp
    rcases List.mem_append.mp hp with hpo | hpb
    · show p.finishTime ≤ (st.mft.set best.machineId best.finishTime).getD p.machineId 0
      by_cases hpm : p.machineId = best.machineId
      · rw [hpm, getD_set_self 0 best.finishTime st.mft best.machineId (by rw [hb_mid]; exact hmlen)]
        have h1 := hinv.fin_mft p hpo
        rw [hpm, hb_mid] at h1
        exact le_trans h1 hfin_ge
      · rw [getD_set_ne 0 best.finishTime st.mft best.machineId p.machineId (fun h => hpm h.symm)]
        exact hinv.fin_mft p hpo
    · have hpb2 : p = best := by simpa using hpb
      subst hpb2
      show p.finishTime ≤ (st.mft.set p.machineId p.finishTime).getD p.machineId 0
      rw [getD_set_self 0 p.finishTime st.mft p.machineId (by rw [hb_mid]; exact hmlen)]
  · -- mft0
    intro m2 hm2
    show 0 ≤ (st.mft.set best.machineId best.finishTime).getD m2 0
    by_cases hm2b : best.machineId = m2
    · rw [← hm2b, getD_set_self 0 best.finishTime st.mft best.machineId (by rw [hb_mid]; exact hmlen)]
      exact le_trans (hinv.mft0 m hmK) hfin_ge
    · rw [getD_set_ne 0 best.finishTime st.mft best.machineId m2 hm2b]
      exact hinv.mft0 m2 hm2
  · -- mft_src
    intro m2 hm2
    by_cases hm2b : best.machineId = m2
    · right
      refine ⟨best, List.mem_append.mpr (Or.inr (by simp)), hm2b, ?_⟩
      show (st.mft.set best.machineId best.finishTime).getD m2 0 = best.finishTime
      rw [← hm2b, getD_set_self 0 best.finishTime st.mft best.machineId (by rw [hb_mid]; exact hmlen)]
    · have hold := hinv.mft_src m2 hm2
      have hsame : (st.mft.set best.machineId best.finishTime).getD m2 0 = st.mft.getD m2 0 :=
        getD_set_ne 0 best.finishTime st.mft best.machineId m2 hm2b
      rcases hold with h | ⟨p, hpo, hpm, hpv⟩
      · left
        rw [hsame]
        exact h
      · right
        exact ⟨p, List.mem_append.mpr (Or.inl hpo), hpm, by rw [hsame]; exact hpv⟩
  · -- closed
    intro c hc hct
    rcases List.mem_append.mp hct with h | h
    · exact List.mem_append.mpr (Or.inl (hinv.closed c hc h))
    · have hcj : c.toJob = j := by simpa using h
      exact List.mem_append.mpr (Or.inl (hpred c hc hcj))
  · -- prec
    intro p hp c hc hcj q hq hqj
    rcases List.mem_append.mp hp with hpo | hpb
    · rcases List.mem_append.mp hq with hqo | hqb
      · exact hinv.prec p hpo c hc hcj q hqo hqj
      · have hqb2 : q = best := by simpa using hqb
        exfalso
        apply hj_not_placed
        have hpj_placed : c.toJob ∈ placed := by
          rw [hcj, ← hinv.map_job]
          exact List.mem_map.mpr ⟨p, hpo, rfl⟩
        have hin := hinv.closed c hc hpj_placed
        rw [← hqj, hqb2, hb_job] at hin
        exact hin
    · have hpb2 : p = best := by simpa using hpb
      subst hpb2
      rcases List.mem_append.mp hq with hqo | hqb
      · have hcin : c ∈ inComms g p.job := mem_inComms hc hcj
        rw [hb_job] at hcin
        have hjft := hinv.jft_eq q hqo
        have hj2m := hinv.j2m_eq q hqo
        constructor
        · intro hmach_eq
          have h1 : q.finishTime ≤ st.mft.getD q.machineId 0 := hinv.fin_mft q hqo
          rw [hmach_eq, hb_mid] at h1
          rw [hb_start]
          exact le_trans h1 hest_ge
        · intro hmach_ne
          have hne2 : m ≠ st.j2m c.fromJob := by
            rw [← hqj, hj2m]
            intro heq
            apply hmach_ne
            rw [hb_mid, ← heq]
          have h2 := earliestStart_ge_pred hcin hne2
          rw [hqj] at hjft
          rw [hb_start, ← hjft]
          exact h2
      · have hqb2 : q = p := by simpa using hqb
        exfalso
        apply hj_not_placed
        have hin := hpred c hc (by rw [hcj, hb_job])
        rw [← hqj, hqb2, hb_job] at hin
        exact hin

/-- The fresh run state satisfies the invariant with nothing placed. -/
theorem SInv_init (g : WorkflowGraph) (K : Nat) : SInv g K [] (initState K) := by
  refine ⟨?_, ?_, ?_, ?_, ?_, ?_, ?_, ?_, ?_, ?_, ?_, ?_⟩
  · show (List.replicate K (0 : Int)).length = K
    simp
  · rfl
  · intro p hp; simp [initState] at hp
  · intro p hp; simp [initState] at hp
  · intro p hp; simp [initState] at hp
  · intro p hp; simp [initState] at hp
  · intro p hp; simp [initState] at hp
  · intro p hp; simp [initState] at hp
  · intro m _
    show (0 : Int) ≤ (List.replicate K (0 : Int)).getD m 0
    rw [getD_replicate_zero]
  · intro m _
    left
    show (List.replicate K (0 : Int)).getD m 0 = 0
    exact getD_replicate_zero K m
  · intro c _ hct; simp at hct
  · intro p hp; simp [initState] at hp

/-- Invariant run of the whole placement loop: with at least one machine the
loop always succeeds, and the invariant transfers to the final state. -/
theorem sched_loop_inv (g : WorkflowGraph) (K : Nat) (hK : 1 ≤ K)
    (hexec : ∀ v : Nat, 0 ≤ execTime g v) :
    ∀ (js placed : List Nat) (st : SchedState),
      SInv g K placed st →
      (placed ++ js).Nodup →
      (∀ c ∈ g.comms, ∀ i : Nat, js.get? i = some c.toJob →
        c.fromJob ∈ placed ∨ ∃ i2 : Nat, i2 < i ∧ js.get? i2 = some c.fromJob) →
      ∃ st2, scheduleLoop g K js st = some st2 ∧ SInv g K (placed ++ js) st2 := by
  intro js
  induction js with
  | nil =>
    intro placed st hinv _ _
    refine ⟨st, rfl, ?_⟩
    rw [List.append_nil]
    exact hinv
  | cons j rest ih =>
    intro placed st hinv hnd htopo
    have hj_not_placed : j ∉ placed := by
      have hd := (List.nodup_append.mp hnd).2.2
      intro hjp
      exact hd hjp (List.mem_cons_self _ _)
    have hpred : ∀ c ∈ g.comms, c.toJob = j → c.fromJob ∈ placed := by
      intro c hc hcj
      rcases htopo c hc 0 (by simp [hcj]) with h | ⟨i2, hi2, _⟩
      · exact h
      · omega
    have hlen : (candidates g K st j).length = K := by simp [candidates]
    obtain ⟨best, hbest⟩ : ∃ b, pickBest (candidates g K st j) = some b := by
      cases hc2 : candidates g K st j with
      | nil => rw [hc2] at hlen; simp at hlen; omega
      | cons c cs => exact ⟨_, rfl⟩
    rcases candidates_mem (pickBest_mem _ _ hbest) with ⟨m, hmK, hbm⟩
    have hstep : scheduleStep g K st j = some
        { mft := st.mft.set best.machineId best.finishTime
          jft := fun v => if v = j then best.finishTime else st.jft v
          j2m := fun v => if v = j then best.machineId else st.j2m v
          order := st.order ++ [best] } := by
      unfold scheduleStep
      rw [hbest]
    have hinv2 := SInv_step g K hexec hinv hmK hbm hj_not_placed hpred
    have hnd2 : ((placed ++ [j]) ++ rest).Nodup := by
      rw [← List.append_cons]
      exact hnd
    have htopo2 : ∀ c ∈ g.comms, ∀ i : Nat, rest.get? i = some c.toJob →
        c.fromJob ∈ placed ++ [j] ∨
          ∃ i2 : Nat, i2 < i ∧ rest.get? i2 = some c.fromJob := by
      intro c hc i hi
      rcases htopo c hc (i + 1) hi with h | ⟨i2, hi2, h2⟩
      · exact Or.inl (List.mem_append.mpr (Or.inl h))
      · cases i2 with
        | zero =>
          have hjf : j = c.fromJob := by simpa using h2
          exact Or.inl (List.mem_append.mpr (Or.inr (by simp [hjf])))
        | succ i3 =>
          exact Or.inr ⟨i3, by omega, h2⟩
    obtain ⟨st2, hloop, hinv3⟩ := ih (placed ++ [j])
      { mft := st.mft.set best.machineId best.finishTime
        jft := fun v => if v = j then best.finishTime else st.jft v
        j2m := fun v => if v = j then best.machineId else st.j2m v
        order := st.order ++ [best] } hinv2 hnd2 htopo2
    refine ⟨st2, ?_, ?_⟩
    · show scheduleLoop g K (j :: rest) st = some st2
      simp only [scheduleLoop, hstep]
      exact hloop
    · rw [List.append_cons]
      exact hinv3

/-- Execution times read through handles are non-negative under the data
model. -/
theorem execTime_nonneg {g : WorkflowGraph} (hnn : NonnegTimes g) :
    ∀ v : Nat, 0 ≤ execTime g v := by
  intro v
  unfold execTime
  cases hv : g.jobs.get? v with
  | none => simp
  | some jb => exact hnn.1 jb (List.get?_mem hv)

/-- A `max` fold from `0` is bounded by any bound on the elements. -/
theorem foldl_max_le {l : List Int} {B : Int} (h0 : 0 ≤ B) (hB : ∀ x ∈ l, x ≤ B) :
    l.foldl max 0 ≤ B := by
  rcases foldl_max_mem l 0 with h | h
  · rw [h]; exact h0
  · exact hB _ h

/-- `makespanOf` is the `max` fold from `0`. -/
theorem makespanOf_eq (l : List Int) : makespanOf l = l.foldl max 0 := by
  unfold makespanOf
  exact makespanOf_eq_foldl_max l 0

/-- In-bounds `getD` values are members. -/
theorem getD_mem {l : List Int} {m : Nat} (h : m < l.length) : l.getD m 0 ∈ l := by
  rw [List.getD_eq_get?]
  cases hg : l.get? m with
  | none =>
    exfalso
    have := List.get?_eq_none.mp hg
    omega
  | some x =>
    simp only [Option.getD_some]
    exact List.get?_mem hg

/-- The full scheduling invariant holds at the end of a `schedule()` run. -/
theorem schedule_SInv (g : WorkflowGraph) (K : Nat) (hwf : WFGraph g) (hK : 1 ≤ K)
    (hexec : ∀ v : Nat, 0 ≤ execTime g v) :
    ∃ st2, scheduleLoop g K (topologicalSort g) (initState K) = some st2 ∧
      SInv g K (topologicalSort g) st2 := by
  obtain ⟨h1, _, h3, _⟩ := topologicalSort_spec hwf
  have htopo : ∀ c ∈ g.comms, ∀ i : Nat,
      (topologicalSort g).get? i = some c.toJob →
      c.fromJob ∈ ([] : List Nat) ∨
        ∃ i2, i2 < i ∧ (topologicalSort g).get? i2 = some c.fromJob := by
    intro c hc i hi
    exact Or.inr (h3 c hc i hi)
  obtain ⟨st2, hl, hinv⟩ := sched_loop_inv g K hK hexec (topologicalSort g) []
    (initState K) (SInv_init g K) (by simpa using h1) htopo
  refine ⟨st2, hl, ?_⟩
  simpa using hinv

/-- C1: every placement starts no earlier than the chosen machine's
previously recorded finish time, and no earlier than each predecessor's
finish time plus the edge's communication time when the predecessor ran on
a different machine (plus nothing on the same machine). -/
theorem schedule_start_time_respects_preds (g : WorkflowGraph) (K : Nat)
    (hwf : WFGraph g) (hnn : NonnegTimes g) (hacy : Acyclic g) (hK : 1 ≤ K)
    (ms : Int) (ord : List ScheduledJob) (h : schedule g K = some (ms, ord)) :
    ∀ p ∈ ord,
      p.scheduleTime ≤ p.startTime ∧
      ∀ c ∈ g.comms, c.toJob = p.job → ∀ q ∈ ord, q.job = c.fromJob →
        (q.machineId = p.machineId → q.finishTime ≤ p.startTime) ∧
        (q.machineId ≠ p.machineId → q.finishTime + c.commTime ≤ p.startTime) := by
  obtain ⟨st2, hl, hinv⟩ := schedule_SInv g K hwf hK (execTime_nonneg hnn)
  unfold schedule at h
  rw [hl] at h
  simp only [Option.some.injEq, Prod.mk.injEq] at h
  have hord : ord = st2.order := h.2.symm
  subst hord
  intro p hp
  exact ⟨hinv.sched_le p hp, fun c hc hcj q hq hqj => hinv.prec p hp c hc hcj q hq hqj⟩

/-- Witness for C1 at the second placement (job `B`) of `gPair` with `K = 1`. -/
theorem schedule_start_time_respects_preds_witness :
    (⟨1, 0, 5, 5, 8⟩ : ScheduledJob).scheduleTime
      ≤ (⟨1, 0, 5, 5, 8⟩ : ScheduledJob).startTime ∧
    ∀ c ∈ gPair.comms, c.toJob = (⟨1, 0, 5, 5, 8⟩ : ScheduledJob).job →
      ∀ q ∈ [(⟨0, 0, 0, 0, 5⟩ : ScheduledJob), ⟨1, 0, 5, 5, 8⟩], q.job = c.fromJob →
        (q.machineId = (⟨1, 0, 5, 5, 8⟩ : ScheduledJob).machineId →
          q.finishTime ≤ (⟨1, 0, 5, 5, 8⟩ : ScheduledJob).startTime) ∧
        (q.machineId ≠ (⟨1, 0, 5, 5, 8⟩ : ScheduledJob).machineId →
          q.finishTime + c.commTime ≤ (⟨1, 0, 5, 5, 8⟩ : ScheduledJob).startTime) :=
  schedule_start_time_respects_preds gPair 1 gPair_wf gPair_nonneg gPair_acyclic
    (by decide) 8 [⟨0, 0, 0, 0, 5⟩, ⟨1, 0, 5, 5, 8⟩] rfl ⟨1, 0, 5, 5, 8⟩ (by decide)

/-- C7: machine assignments stay below `K`, and the returned makespan equals
both the maximum final machine load and the maximum placement finish time
(each expressed as a `max` fold from `0`, hence `0` for an empty job set). -/
theorem schedule_machine_range_makespan (g : WorkflowGraph) (K : Nat)
    (hwf : WFGraph g) (hnn : NonnegTimes g) (hacy : Acyclic g) (hK : 1 ≤ K)
    (ms : Int) (ord : List ScheduledJob) (h : schedule g K = some (ms, ord)) :
    (∀ p ∈ ord, p.machineId < K) ∧
    ms = ((List.range K).map (machineLoad ord)).foldl max 0 ∧
    ms = (ord.map (fun p => p.finishTime)).foldl max 0 := by
  have hexec := execTime_nonneg hnn
  obtain ⟨st2, hl, hinv⟩ := schedule_SInv g K hwf hK hexec
  have hfin_eq := scheduleLoop_fin_eq g K _ _ _ hl
  unfold schedule at h
  rw [hl] at h
  simp only [Option.some.injEq, Prod.mk.injEq] at h
  have hord : ord = st2.order := h.2.symm
  have hms : ms = makespanOf st2.mft := h.1.symm
  subst hord
  -- non-negative finish times
  have hfin0 : ∀ p ∈ st2.order, 0 ≤ p.finishTime := by
    intro p hp
    rcases hfin_eq p hp with hmem | heq
    · simp [initState] at hmem
    · rw [heq]
      have := hinv.start0 p hp
      have := hexec p.job
      omega
  -- pointwise machine loads
  have hpt : ∀ m, m < K → st2.mft.getD m 0 = machineLoad st2.order m := by
    intro m hm
    unfold machineLoad
    apply le_antisymm
    · rcases hinv.mft_src m hm with h0 | ⟨p, hp, hpm, hpv⟩
      · rw [h0]
        exact le_foldl_max _ 0
      · rw [hpv]
        apply elem_le_foldl_max
        apply List.mem_map.mpr
        refine ⟨p, List.mem_filter.mpr ⟨hp, by simp [hpm]⟩, rfl⟩
    · apply foldl_max_le (hinv.mft0 m hm)
      intro x hx
      rcases List.mem_map.mp hx with ⟨p, hpf, hpx⟩
      have hpo := (List.mem_filter.mp hpf).1
      have hpm : p.machineId = m := by
        have := (List.mem_filter.mp hpf).2
        simpa using this
      rw [← hpx, ← hpm]
      exact hinv.fin_mft p hpo
  have hmlen : st2.mft.length = K := hinv.len
  refine ⟨hinv.mid_lt, ?_, ?_⟩
  · -- makespan = max over machines of final load
    rw [hms, makespanOf_eq]
    have hlist : st2.mft = (List.range K).map (fun m => st2.mft.getD m 0) := by
      have hh := map_getD_range (0 : Int) st2.mft
      rw [hmlen] at hh
      exact hh.symm
    rw [hlist]
    apply congrArg
    apply List.map_congr_left
    intro m hm
    exact hpt m (List.mem_range.mp hm)
  · -- makespan = max over placements of finish time
    rw [hms, makespanOf_eq]
    apply le_antisymm
    · rcases foldl_max_mem st2.mft 0 with h0 | hmem
      · rw [h0]
        exact le_foldl_max _ 0
      · rcases List.mem_iff_get?.mp hmem with ⟨n, hn⟩
        have hnK : n < K := by
          have h1 := List.get?_eq_some.mp hn
          rcases h1 with ⟨hlt, _⟩
          rw [← hmlen]
          exact hlt
        have hgd : st2.mft.getD n 0 = st2.mft.foldl max 0 := by
          rw [List.getD_eq_get?, hn]
          rfl
        rcases hinv.mft_src n hnK with h0 | ⟨p, hp, hpm, hpv⟩
        · rw [← hgd, h0]
          exact le_foldl_max _ 0
        · rw [← hgd, hpv]
          apply elem_le_foldl_max
          exact List.mem_map.mpr ⟨p, hp, rfl⟩
    · apply foldl_max_le (le_foldl_max _ 0)
      intro x hx
      rcases List.mem_map.mp hx with ⟨p, hp, hpx⟩
      have h1 : p.finishTime ≤ st2.mft.getD p.machineId 0 := hinv.fin_mft p hp
      have h2 : st2.mft.getD p.machineId 0 ∈ st2.mft :=
        getD_mem (by rw [hmlen]; exact hinv.mid_lt p hp)
      rw [← hpx]
      exact le_trans h1 (elem_le_foldl_max _ 0 _ h2)

/-- Witness for C7 at the concrete two-job chain `gPair` with `K = 1`. -/
theorem schedule_machine_range_makespan_witness :
    (∀ p ∈ [(⟨0, 0, 0, 0, 5⟩ : ScheduledJob), ⟨1, 0, 5, 5, 8⟩], p.machineId < 1) ∧
    (8 : Int) = ((List.range 1).map
      (machineLoad [(⟨0, 0, 0, 0, 5⟩ : ScheduledJob), ⟨1, 0, 5, 5, 8⟩])).foldl max 0 ∧
    (8 : Int) = (([(⟨0, 0, 0, 0, 5⟩ : ScheduledJob), ⟨1, 0, 5, 5, 8⟩]).map
      (fun p => p.finishTime)).foldl max 0 :=
  schedule_machine_range_makespan gPair 1 gPair_wf gPair_nonneg gPair_acyclic
    (by decide) 8 _ rfl

/-- A fold whose step keeps the accumulator on every element of the list is
the identity. -/
theorem foldl_const {α : Type} (f : Int → α → Int) :
    ∀ (l : List α) (init : Int), (∀ a x, x ∈ l → f a x = a) →
      l.foldl f init = init := by
  intro l
  induction l with
  | nil => intro init _; rfl
  | cons x xs ih =>
    intro init hf
    rw [List.foldl_cons, hf init x (List.mem_cons_self _ _)]
    exact ih init (fun a y hy => hf a y (List.mem_cons_of_mem _ hy))

/-- With a single machine every predecessor is mapped to machine `0`, so the
communication scan skips every in-edge and the earliest start is just the
machine's current finish time. -/
theorem earliestStart_K1 (g : WorkflowGraph) (st : SchedState) (j : Nat)
    (hj2m : ∀ v, st.j2m v = 0) : earliestStart g st j 0 = st.mft.getD 0 0 := by
  unfold earliestStart
  apply foldl_const
  intro a c _
  rw [if_pos (by rw [hj2m])]

/-- The `K = 1` placement loop accumulates exactly the execution times on
machine `0`, and every placement starts at the machine's backlog (no
communication term ever applies). -/
theorem scheduleLoop_K1 (g : WorkflowGraph) :
    ∀ (js : List Nat) (s : Int) (jft : Nat → Int) (j2m : Nat → Nat)
      (ordr : List ScheduledJob),
      (∀ v, j2m v = 0) →
      ∃ st2, scheduleLoop g 1 js ⟨[s], jft, j2m, ordr⟩ = some st2 ∧
        st2.mft = [s + (js.map (execTime g)).sum] ∧
        (∀ p ∈ st2.order, p ∈ ordr ∨ p.startTime = p.scheduleTime) := by
  intro js
  induction js with
  | nil =>
    intro s jft j2m ordr _
    exact ⟨⟨[s], jft, j2m, ordr⟩, rfl, by simp, fun p hp => Or.inl hp⟩
  | cons j rest ih =>
    intro s jft j2m ordr hj2m
    have hest : earliestStart g ⟨[s], jft, j2m, ordr⟩ j 0 = s := by
      rw [earliestStart_K1 g ⟨[s], jft, j2m, ordr⟩ j hj2m]
      rfl
    have hstep0 : scheduleStep g 1 ⟨[s], jft, j2m, ordr⟩ j = some
        { mft := [earliestStart g ⟨[s], jft, j2m, ordr⟩ j 0 + execTime g j]
          jft := fun v => if v = j then
            earliestStart g ⟨[s], jft, j2m, ordr⟩ j 0 + execTime g j else jft v
          j2m := fun v => if v = j then 0 else j2m v
          order := ordr ++ [⟨j, 0, s, earliestStart g ⟨[s], jft, j2m, ordr⟩ j 0,
            earliestStart g ⟨[s], jft, j2m, ordr⟩ j 0 + execTime g j⟩] } := rfl
    rw [hest] at hstep0
    obtain ⟨st2, hl2, hmft2, hord2⟩ := ih (s + execTime g j)
      (fun v => if v = j then s + execTime g j else jft v)
      (fun v => if v = j then 0 else j2m v)
      (ordr ++ [⟨j, 0, s, s, s + execTime g j⟩])
      (by intro v; by_cases hv : v = j <;> simp [hv, hj2m])
    refine ⟨st2, ?_, ?_, ?_⟩
    · show scheduleLoop g 1 (j :: rest) ⟨[s], jft, j2m, ordr⟩ = some st2
      simp only [scheduleLoop, hstep0]
      exact hl2
    · rw [hmft2]
      simp [add_assoc]
    · intro p hp
      rcases hord2 p hp with hmem | heq
      · rcases List.mem_append.mp hmem with h | h
        · exact Or.inl h
        · have hp2 : p = ⟨j, 0, s, s, s + execTime g j⟩ := by simpa using h
          subst hp2
          exact Or.inr rfl
      · exact Or.inr heq

/-- The topological order produced on an acyclic well-formed graph is a
permutation of all job handles. -/
theorem topologicalSort_perm {g : WorkflowGraph} (hwf : WFGraph g)
    (hacy : Acyclic g) :
    List.Perm (topologicalSort g) (List.range g.jobs.length) := by
  obtain ⟨h1, h2, _, _⟩ := topologicalSort_spec hwf
  apply (List.perm_ext_iff_of_nodup h1 (List.nodup_range _)).mpr
  intro v
  constructor
  · intro hv
    exact List.mem_range.mpr (h2 v hv)
  · intro hv
    exact topologicalSort_complete hwf hacy v (List.mem_range.mp hv)

/-- Reading the execution times handle by handle reproduces the job list's
execution times. -/
theorem map_execTime_range (g : WorkflowGraph) :
    (List.range g.jobs.length).map (execTime g)
      = g.jobs.map (fun jb => jb.executionTime) := by
  apply List.ext_get?
  intro n
  by_cases hn : n < g.jobs.length
  · rw [List.get?_map, List.get?_map, List.get?_range hn]
    cases hj : g.jobs.get? n with
    | none =>
      have := List.get?_eq_none.mp hj
      omega
    | some jb =>
      simp only [Option.map_some']
      have hex : execTime g n = jb.executionTime := by
        unfold execTime
        rw [hj]
      rw [hex]
  · have h1 : (List.range g.jobs.length).get? n = none := by
      rw [List.get?_eq_none]
      simpa using Nat.le_of_not_lt hn
    have h2 : g.jobs.get? n = none := List.get?_eq_none.mpr (Nat.le_of_not_lt hn)
    rw [List.get?_map, List.get?_map, h1, h2]
    rfl

/-- C4: with `K = 1` the makespan equals the sum of all execution times and
no communication cost ever contributes to any start time (every placement
starts exactly at the machine's prior backlog). -/
theorem schedule_single_machine_makespan (g : WorkflowGraph)
    (hwf : WFGraph g) (hnn : NonnegTimes g) (hacy : Acyclic g)
    (ms : Int) (ord : List ScheduledJob) (h : schedule g 1 = some (ms, ord)) :
    ms = (g.jobs.map (fun jb => jb.executionTime)).sum ∧
    ∀ p ∈ ord, p.startTime = p.scheduleTime := by
  obtain ⟨st2, hl2, hmft2, hord2⟩ := scheduleLoop_K1 g (topologicalSort g) 0
    (fun _ => 0) (fun _ => 0) [] (fun _ => rfl)
  unfold schedule at h
  have hinit : initState 1 = ⟨[(0 : Int)], fun _ => 0, fun _ => 0, []⟩ := rfl
  rw [hinit, hl2] at h
  simp only [Option.some.injEq, Prod.mk.injEq] at h
  have hsum : ((topologicalSort g).map (execTime g)).sum
      = (g.jobs.map (fun jb => jb.executionTime)).sum := by
    rw [← map_execTime_range g]
    exact ((topologicalSort_perm hwf hacy).map _).sum_eq
  have hS : 0 ≤ ((topologicalSort g).map (execTime g)).sum := by
    apply List.sum_nonneg
    intro x hx
    rcases List.mem_map.mp hx with ⟨v, _, hv⟩
    rw [← hv]
    exact execTime_nonneg hnn v
  constructor
  · rw [← h.1, hmft2, makespanOf_eq]
    simp only [List.foldl_cons, List.foldl_nil, zero_add]
    rw [max_eq_right hS, hsum]
  · intro p hp
    have hpo : p ∈ st2.order := by rw [h.2]; exact hp
    rcases hord2 p hpo with hmem | heq
    · simp at hmem
    · exact heq

/-- Witness for C4 at the concrete two-job chain `gPair`. -/
theorem schedule_single_machine_makespan_witness :
    (8 : Int) = (gPair.jobs.map (fun jb => jb.executionTime)).sum ∧
    ∀ p ∈ [(⟨0, 0, 0, 0, 5⟩ : ScheduledJob), ⟨1, 0, 5, 5, 8⟩],
      p.startTime = p.scheduleTime :=
  schedule_single_machine_makespan gPair gPair_wf gPair_nonneg gPair_acyclic 8 _ rfl

/-- Unfolding of the critical-weight recursion at positive depth: the
running-maximum fold is a `max` fold over the successor terms. -/
theorem getJobCriticalWeight_succ (g : WorkflowGraph) (fuel : Nat) (u : Nat) :
    getJobCriticalWeight g (fuel + 1) u
      = ((outComms g u).map
          (fun c => c.commTime + getJobCriticalWeight g fuel c.toJob)).foldl max 0
        + execTime g u := by
  show ((outComms g u).foldl
      (fun acc c =>
        let w := c.commTime + getJobCriticalWeight g fuel c.toJob
        if acc < w then w else acc) 0) + execTime g u = _
  congr 1
  have hf : (fun (acc : Int) (c : Communication) =>
      let w := c.commTime + getJobCriticalWeight g fuel c.toJob
      if acc < w then w else acc)
      = fun (acc : Int) (c : Communication) =>
          max acc (c.commTime + getJobCriticalWeight g fuel c.toJob) := by
    funext acc c
    exact if_lt_eq_max _ _
  rw [hf, List.foldl_map]

/-- Critical weights are non-negative under the non-negative data model. -/
theorem getJobCriticalWeight_nonneg {g : WorkflowGraph} (hnn : NonnegTimes g) :
    ∀ (fuel : Nat) (u : Nat), 0 ≤ getJobCriticalWeight g fuel u := by
  intro fuel
  induction fuel with
  | zero => intro u; simp [getJobCriticalWeight]
  | succ fuel _ =>
    intro u
    rw [getJobCriticalWeight_succ]
    have h1 : (0 : Int) ≤ ((outComms g u).map
        (fun c => c.commTime + getJobCriticalWeight g fuel c.toJob)).foldl max 0 :=
      le_foldl_max _ 0
    have h2 := execTime_nonneg hnn u
    omega

/-- A job with no outgoing communications has critical weight equal to its
execution time at every positive recursion depth. -/
theorem cw_no_out {g : WorkflowGraph} {u : Nat} (hout : outComms g u = [])
    {f : Nat} (hf : 1 ≤ f) : getJobCriticalWeight g f u = execTime g u := by
  obtain ⟨f2, rfl⟩ : ∃ f2, f = f2 + 1 := ⟨f - 1, by omega⟩
  rw [getJobCriticalWeight_succ, hout]
  simp

/-- Fuel stability of the critical-weight recursion on a rank-numbered
(acyclic) graph: once the depth covers the longest remaining path, the value
no longer depends on it. -/
theorem cw_fuel_stable {g : WorkflowGraph} {rank : Nat → Nat}
    (hrank : ∀ c ∈ g.comms,
      rank c.fromJob < rank c.toJob ∧ rank c.toJob < g.jobs.length) :
    ∀ (k : Nat) (u : Nat) (f1 f2 : Nat),
      g.jobs.length - rank u ≤ k →
      max 1 (g.jobs.length - rank u) ≤ f1 →
      max 1 (g.jobs.length - rank u) ≤ f2 →
      getJobCriticalWeight g f1 u = getJobCriticalWeight g f2 u := by
  intro k
  induction k with
  | zero =>
    intro u f1 f2 hk hf1 hf2
    have h1f1 : 1 ≤ f1 := le_trans (le_max_left _ _) hf1
    have h1f2 : 1 ≤ f2 := le_trans (le_max_left _ _) hf2
    have hout : outComms g u = [] := by
      cases houtc : outComms g u with
      | nil => rfl
      | cons c0 cs =>
        exfalso
        have hc0 : c0 ∈ outComms g u := by rw [houtc]; exact List.mem_cons_self _ _
        have hc0c : c0 ∈ g.comms := (List.mem_filter.mp hc0).1
        have hc0f : c0.fromJob = u := by
          simpa using (List.mem_filter.mp hc0).2
        have hr0 := hrank c0 hc0c
        rw [hc0f] at hr0
        omega
    rw [cw_no_out hout h1f1, cw_no_out hout h1f2]
  | succ k ihk =>
    intro u f1 f2 hk hf1 hf2
    have h1f1 : 1 ≤ f1 := le_trans (le_max_left _ _) hf1
    have h1f2 : 1 ≤ f2 := le_trans (le_max_left _ _) hf2
    cases houtc : outComms g u with
    | nil => rw [cw_no_out houtc h1f1, cw_no_out houtc h1f2]
    | cons c0 cs =>
      have hc0 : c0 ∈ outComms g u := by rw [houtc]; exact List.mem_cons_self _ _
      have hc0c : c0 ∈ g.comms := (List.mem_filter.mp hc0).1
      have hc0f : c0.fromJob = u := by
        simpa using (List.mem_filter.mp hc0).2
      have hr0 := hrank c0 hc0c
      rw [hc0f] at hr0
      have hrN : rank u + 2 ≤ g.jobs.length := by omega
      have hmax1 : max 1 (g.jobs.length - rank u) = g.jobs.length - rank u :=
        Nat.max_eq_right (by omega)
      rw [hmax1] at hf1 hf2
      obtain ⟨f1p, rfl⟩ : ∃ fp, f1 = fp + 1 := ⟨f1 - 1, by omega⟩
      obtain ⟨f2p, rfl⟩ : ∃ fp, f2 = fp + 1 := ⟨f2 - 1, by omega⟩
      rw [getJobCriticalWeight_succ, getJobCriticalWeight_succ]
      have hmapeq : (outComms g u).map
          (fun c => c.commTime + getJobCriticalWeight g f1p c.toJob)
          = (outComms g u).map
              (fun c => c.commTime + getJobCriticalWeight g f2p c.toJob) := by
        apply List.map_congr_left
        intro c hcm
        have hcc : c ∈ g.comms := (List.mem_filter.mp hcm).1
        have hcf : c.fromJob = u := by simpa using (List.mem_filter.mp hcm).2
        have hrc := hrank c hcc
        rw [hcf] at hrc
        have h1c : 1 ≤ g.jobs.length - rank c.toJob := by omega
        have heq : getJobCriticalWeight g f1p c.toJob
            = getJobCriticalWeight g f2p c.toJob := by
          apply ihk c.toJob f1p f2p
          · omega
          · rw [Nat.max_eq_right h1c]; omega
          · rw [Nat.max_eq_right h1c]; omega
        rw [heq]
      rw [hmapeq]

/-- A `max` fold from `0` over non-negative values is their maximum. -/
theorem foldl_max0_eq_maxOr0 (l : List Int) (h : ∀ x ∈ l, 0 ≤ x) :
    l.foldl max 0 = maxOr0 l := by
  cases l with
  | nil => rfl
  | cons x xs =>
    show xs.foldl max (max 0 x) = xs.foldl max x
    rw [max_eq_right (h x (List.mem_cons_self _ _))]

/-- C9: the critical weight used by the criticality priority equals the
job's execution time plus the maximum over its outgoing edges of
(communication time + critical weight of the successor), the maximum taken
as `0` for jobs with no outgoing edges; and the memoized recursion
terminates on every DAG: its value is stable at every depth of at least
`|jobs|`. -/
theorem criticalWeight_recurrence (g : WorkflowGraph) (hwf : WFGraph g)
    (hnn : NonnegTimes g) (hacy : Acyclic g) :
    ∀ u, u < g.jobs.length →
      (criticalWeight g u
        = execTime g u + maxOr0 ((outComms g u).map
            (fun c => c.commTime + criticalWeight g c.toJob)) ∧
      ∀ fuel, g.jobs.length ≤ fuel →
        getJobCriticalWeight g fuel u = criticalWeight g u) := by
  obtain ⟨rank, hrank⟩ := hacy
  have hstable : ∀ u f1 f2, max 1 (g.jobs.length - rank u) ≤ f1 →
      max 1 (g.jobs.length - rank u) ≤ f2 →
      getJobCriticalWeight g f1 u = getJobCriticalWeight g f2 u :=
    fun u f1 f2 h1 h2 =>
      cw_fuel_stable hrank (g.jobs.length - rank u) u f1 f2 (le_refl _) h1 h2
  intro u hu
  have hN1 : 1 ≤ g.jobs.length := by omega
  have hmaxN : max 1 (g.jobs.length - rank u) ≤ g.jobs.length :=
    max_le hN1 (Nat.sub_le _ _)
  constructor
  · unfold criticalWeight
    obtain ⟨Np, hNp⟩ : ∃ Np, g.jobs.length = Np + 1 := ⟨g.jobs.length - 1, by omega⟩
    rw [hNp, getJobCriticalWeight_succ]
    have hmap : (outComms g u).map
        (fun c => c.commTime + getJobCriticalWeight g Np c.toJob)
        = (outComms g u).map
            (fun c => c.commTime + getJobCriticalWeight g (Np + 1) c.toJob) := by
      apply List.map_congr_left
      intro c hcm
      have hcc : c ∈ g.comms := (List.mem_filter.mp hcm).1
      have hrc := hrank c hcc
      have h1c : 1 ≤ g.jobs.length - rank c.toJob := by omega
      have heq : getJobCriticalWeight g Np c.toJob
          = getJobCriticalWeight g (Np + 1) c.toJob := by
        apply hstable c.toJob
        · rw [Nat.max_eq_right h1c]; omega
        · rw [Nat.max_eq_right h1c]; omega
      rw [heq]
    rw [hmap]
    have hterms : ∀ x ∈ (outComms g u).map
        (fun c => c.commTime + getJobCriticalWeight g (Np + 1) c.toJob), 0 ≤ x := by
      intro x hx
      rcases List.mem_map.mp hx with ⟨c, hcm, hcx⟩
      have hcc : c ∈ g.comms := (List.mem_filter.mp hcm).1
      have h1 := hnn.2 c hcc
      have h2 := getJobCriticalWeight_nonneg hnn (Np + 1) c.toJob
      omega
    rw [foldl_max0_eq_maxOr0 _ hterms]
    ring
  · intro fuel hfuel
    unfold criticalWeight
    exact hstable u fuel g.jobs.length (le_trans hmaxN hfuel) hmaxN

/-- Witness for C9 at job `A` of the concrete two-job chain `gPair`. -/
theorem criticalWeight_recurrence_witness :
    criticalWeight gPair 0
      = execTime gPair 0 + maxOr0 ((outComms gPair 0).map
          (fun c => c.commTime + criticalWeight gPair c.toJob)) ∧
    ∀ fuel, gPair.jobs.length ≤ fuel →
      getJobCriticalWeight gPair fuel 0 = criticalWeight gPair 0 :=
  criticalWeight_recurrence gPair gPair_wf gPair_nonneg gPair_acyclic 0 (by decide)
